import Mathlib

/-!
Verification of the topological-navigation planner of `vla-robot-cleaning`
(`src/representation/interactive_planner.js`) against its natural-language
specification.

The JavaScript planner is shallowly embedded below.  JS numbers are modelled
as rationals (every float is a rational); `Math.sqrt` is modelled by
`Rat.sqrt`, which agrees with the ideal square root on perfect squares (all
concrete graphs used below are laid out so that every distance that the
planner actually computes is a perfect square, where the model and the
floating-point source agree exactly).  JS `Map` is modelled as an
association list updated by consing (lookup finds the newest binding), and
JS `Set` as a duplicate-free list in insertion order, which is the iteration
order of a JS `Set`.

The source's `while (openSet.size > 0)` loop is embedded as a fuel-indexed
loop `astarLoop`; `astar` runs it with the explicit fuel `fuelBound`, which
is proven sufficient for every graph with non-negative edge weights
(`astarLoop` never exhausts it), so `astar` is a faithful total model of the
source loop on the graphs the specification talks about.
-/

set_option maxRecDepth 40000

/-- A graph node as used by the planner: only the coordinates matter to the
planning code (`heuristic` reads `.x`/`.y`); id is the list index. -/
structure Node where
  x : ℚ
  y : ℚ
deriving DecidableEq

/-- A graph edge; JS fields `from`, `to`, `weight`. -/
structure Edge where
  efrom : ℕ
  eto : ℕ
  weight : ℚ
deriving DecidableEq

/-- The graph handed to the planner (`{ nodes, edges }`). -/
structure Graph where
  nodes : List Node
  edges : List Edge
deriving DecidableEq

/-- Lookup in an association list, newest binding first (JS `Map.get`). -/
def mget {α : Type} : List (ℕ × α) → ℕ → Option α
  | [], _ => none
  | (k, v) :: m, x => if x = k then some v else mget m x

/-- `Map.get` with the default 0 for scores (the planner only reads scores
of keys that are present). -/
def mgetD (m : List (ℕ × ℚ)) (k : ℕ) : ℚ := (mget m k).getD 0

/-- `heuristic(a, b)` from the source: straight-line Euclidean distance
between two nodes. -/
def heuristic (a b : Node) : ℚ :=
  Rat.sqrt ((a.x - b.x) * (a.x - b.x) + (a.y - b.y) * (a.y - b.y))

/-- `graph.nodes[i]`; out-of-range access cannot occur in the scenarios we
evaluate, the default is arbitrary. -/
def nodeAt (g : Graph) (i : ℕ) : Node := (g.nodes.get? i).getD ⟨0, 0⟩

/-- The mutable state of the A* loop: `openSet` (insertion-ordered,
duplicate-free), `cameFrom`, `gScore`, `fScore`. -/
structure AState where
  openSet : List ℕ
  cameFrom : List (ℕ × ℕ)
  gScore : List (ℕ × ℚ)
  fScore : List (ℕ × ℚ)
deriving DecidableEq

/-- `Array.from(openSet).reduce((a, b) => fScore.get(a) < fScore.get(b) ? a : b)`:
the JS reduce keeps the accumulator only on a strictly smaller f-score, so a
tie goes to the later element. -/
def selectCurrent (f : List (ℕ × ℚ)) : List ℕ → ℕ
  | [] => 0
  | x :: xs => xs.foldl (fun a b => if mgetD f a < mgetD f b then a else b) x

/-- The neighbor list of `current` (source lines 74-76): edges are followed
in both directions. -/
def neighborIds (edges : List Edge) (current : ℕ) : List ℕ :=
  (edges.filter fun e => decide (e.efrom = current ∨ e.eto = current)).map
    fun e => if e.efrom = current then e.eto else e.efrom

/-- `edges.find(...)` of source lines 79-82: the first edge joining
`current` and `neighbor` in either orientation. -/
def findEdge (edges : List Edge) (current neighbor : ℕ) : Option Edge :=
  edges.find? fun e =>
    decide ((e.efrom = current ∧ e.eto = neighbor) ∨ (e.eto = current ∧ e.efrom = neighbor))

/-- The body of the `for (const neighbor of neighbors)` loop (source lines
78-92).  The `none` branch of `findEdge` is unreachable because every
neighbor comes from an incident edge. -/
def relax (h : ℕ → ℚ) (edges : List Edge) (current : ℕ) (s : AState) (n : ℕ) : AState :=
  match findEdge edges current n with
  | none => s
  | some e =>
    let t : ℚ := mgetD s.gScore current + e.weight
    let better : Bool :=
      match mget s.gScore n with
      | none => true
      | some gn => decide (t < gn)
    if better then
      { openSet := if n ∈ s.openSet then s.openSet else s.openSet ++ [n]
        cameFrom := (n, current) :: s.cameFrom
        gScore := (n, t) :: s.gScore
        fScore := (n, t + h n) :: s.fScore }
    else s

/-- One full expansion of `current`: delete it from the open set, then relax
all its neighbors (source lines 72-92). -/
def expand (h : ℕ → ℚ) (edges : List Edge) (current : ℕ) (s : AState) : AState :=
  (neighborIds edges current).foldl (relax h edges current)
    { s with openSet := s.openSet.erase current }

/-- `reconstructPath(cameFrom, current)`: follow parent pointers back and
prepend.  The source's `while (cameFrom.has(current))` loop is run with
enough fuel for the parent chain, which is proven acyclic. -/
def reconstructPath (came : List (ℕ × ℕ)) : ℕ → ℕ → List ℕ
  | 0, current => [current]
  | fuel + 1, current =>
    match mget came current with
    | none => [current]
    | some prev => reconstructPath came fuel prev ++ [current]

/-- The `while (openSet.size > 0)` loop of `astar` (source lines 63-95),
fuel-indexed; `none` means the fuel ran out (never happens at `fuelBound`
when all edge weights are non-negative), `some none` is the source's
`return null`, `some (some p)` its `return reconstructPath(...)`. -/
def astarLoop (h : ℕ → ℚ) (edges : List Edge) (goal : ℕ) : ℕ → AState → Option (Option (List ℕ))
  | fuel, s =>
    match s.openSet with
    | [] => some none
    | x :: xs =>
      let current := selectCurrent s.fScore (x :: xs)
      if current = goal then
        some (some (reconstructPath s.cameFrom s.cameFrom.length current))
      else
        match fuel with
        | 0 => none
        | fuel' + 1 => astarLoop h edges goal fuel' (expand h edges current s)

/-- All node ids the search can ever touch: the start plus all edge
endpoints. -/
def allIdsList (edges : List Edge) (start : ℕ) : List ℕ :=
  start :: edges.foldr (fun e a => e.efrom :: e.eto :: a) []

/-- Same ids as a finite set. -/
def allIdsF (edges : List Edge) (start : ℕ) : Finset ℕ := (allIdsList edges start).toFinset

/-- Number of reachable-in-principle ids. -/
def idCount (edges : List Edge) (start : ℕ) : ℕ := (allIdsF edges start).card

/-- A common denominator of all edge weights. -/
def denomLcm (edges : List Edge) : ℕ := edges.foldr (fun e a => Nat.lcm e.weight.den a) 1

/-- A non-negative rational with `(q * d).den = 1`, seen as a natural. -/
def natOf (d : ℕ) (q : ℚ) : ℕ := (q * (d : ℚ)).num.toNat

/-- Max edge weight, scaled to a natural by the common denominator. -/
def maxWN (edges : List Edge) : ℕ :=
  edges.foldr (fun e a => max (natOf (denomLcm edges) e.weight) a) 0

/-- Upper bound for every (scaled) g-score the search can store. -/
def gBnd (edges : List Edge) (start : ℕ) : ℕ := idCount edges start * maxWN edges

/-- Fuel that provably suffices for the search loop on graphs with
non-negative weights. -/
def fuelBound (edges : List Edge) (start : ℕ) : ℕ :=
  idCount edges start * (gBnd edges start + 1) * (idCount edges start + 1)
    + idCount edges start + 1

/-- The initial search state (source lines 55-61). -/
def initState (h : ℕ → ℚ) (start : ℕ) : AState :=
  { openSet := [start], cameFrom := [], gScore := [(start, 0)], fScore := [(start, h start)] }

/-- `astar` with an explicit heuristic-to-goal function. -/
def astarWith (h : ℕ → ℚ) (edges : List Edge) (start goal : ℕ) : Option (Option (List ℕ)) :=
  astarLoop h edges goal (fuelBound edges start) (initState h start)

/-- `heuristic(nodes[n], nodes[goal])` as a function of `n`. -/
def heurTo (g : Graph) (goal n : ℕ) : ℚ := heuristic (nodeAt g n) (nodeAt g goal)

/-- The planner `astar(graph, start, goal)` of the source.  `some none` is
the source's `null` return, `some (some p)` a found path. -/
def astar (g : Graph) (start goal : ℕ) : Option (Option (List ℕ)) :=
  astarWith (heurTo g goal) g.edges start goal

/-- The single-goal branch of `calculatePath`: `setCurrentPath(path || [])`
(source lines 132-134) — the caller branches on the `null` result and keeps
the empty path. -/
def calculatePathSingle (g : Graph) (start goal : ℕ) : List ℕ :=
  match astar g start goal with
  | some (some p) => p
  | _ => []

/-- `calculatePathDistance(path)` (source lines 169-177): the sum of the
straight-line distances between consecutive path nodes. -/
def calculatePathDistance (g : Graph) : List ℕ → ℚ
  | a :: b :: rest => heuristic (nodeAt g a) (nodeAt g b) + calculatePathDistance g (b :: rest)
  | _ => 0

/-- The inner `for (const goal of remaining)` loop of the multi-goal branch
(source lines 142-156): the remaining goal with the strictly smallest path
distance wins, so on ties the earliest goal in iteration order is kept.
A `null` path (unreachable goal) is skipped; a fuel-exhausted inner search
(impossible on the graphs of the claims) is modelled like a skip. -/
def selectBestGoal (g : Graph) (current : ℕ) (goalsLeft : List ℕ) :
    Option (ℕ × List ℕ × ℚ) :=
  goalsLeft.foldl
    (fun best goal =>
      match astar g current goal with
      | some (some path) =>
        let dist := calculatePathDistance g path
        match best with
        | none => some (goal, path, dist)
        | some (bg, bp, bd) => if dist < bd then some (goal, path, dist) else some (bg, bp, bd)
      | _ => best)
    none

/-- The outer `while (remaining.size > 0)` loop of the multi-goal branch
(source lines 141-163); the fuel is the number of goals, which suffices
because each round removes the selected goal. -/
def multiLoop (g : Graph) : ℕ → ℕ → List ℕ → List ℕ → List ℕ
  | 0, _, _, fullPath => fullPath
  | fuel + 1, current, remaining, fullPath =>
    if remaining = [] then fullPath
    else
      match selectBestGoal g current remaining with
      | none => fullPath
      | some (bg, bp, _) => multiLoop g fuel bg (remaining.erase bg) (fullPath ++ bp.tail)

/-- The multi-goal branch of `calculatePath` (source lines 136-166): greedy
nearest-neighbor chaining, returning only the accumulated path. -/
def calculatePathMulti (g : Graph) (start : ℕ) (goals : List ℕ) : List ℕ :=
  multiLoop g goals.length start goals [start]

/-- The continuation appended after a leg of the multi-goal loop:
`bestPath.slice(1)` when the search found a path, nothing otherwise. -/
def tailOrNil (r : Option (Option (List ℕ))) : List ℕ :=
  match r with
  | some (some q) => q.tail
  | _ => []

/-- `x.toFixed(1)` on a non-negative numeric value, as a rational: round to
the nearest tenth (JS picks the larger candidate on ties, as does
`round`). -/
def round1 (q : ℚ) : ℚ := (round (q * 10) : ℤ) / 10

/-- The displayed `pathDistance` (source line 201):
`currentPath.length > 0 ? calculatePathDistance(currentPath).toFixed(1) : 0`. -/
def pathDistanceVal (g : Graph) (p : List ℕ) : ℚ :=
  if 0 < p.length then round1 (calculatePathDistance g p) else 0

/-- The displayed `estimatedTime` (source line 202):
`(pathDistance / 50).toFixed(1)`, 50 being the nominal robot speed. -/
def estimatedTimeVal (g : Graph) (p : List ℕ) : ℚ :=
  round1 (pathDistanceVal g p / 50)

/-- Written from the spec's words for comparison with the code: the sum of
the traversed edges' own costs (`base_cost`, the JS `weight`) along a path;
the spec says the reported cumulative distance equals this sum. -/
def specBaseCostSum (g : Graph) : List ℕ → ℚ
  | a :: b :: rest =>
    (match findEdge g.edges a b with
     | some e => e.weight
     | none => 0) + specBaseCostSum g (b :: rest)
  | _ => 0

/-- Two nodes are adjacent when some edge joins them in either orientation —
this is the connectivity the planner actually walks. -/
def Adj (edges : List Edge) (u v : ℕ) : Prop :=
  ∃ e ∈ edges, (e.efrom = u ∧ e.eto = v) ∨ (e.efrom = v ∧ e.eto = u)

instance (edges : List Edge) (u v : ℕ) : Decidable (Adj edges u v) :=
  inferInstanceAs (Decidable (∃ e ∈ edges, (e.efrom = u ∧ e.eto = v) ∨ (e.efrom = v ∧ e.eto = u)))

/-- Consecutive members of the list are adjacent. -/
def chainAdj (edges : List Edge) : List ℕ → Prop
  | a :: b :: rest => Adj edges a b ∧ chainAdj edges (b :: rest)
  | _ => True

instance chainAdjDec (edges : List Edge) : (l : List ℕ) → Decidable (chainAdj edges l)
  | [] => isTrue trivial
  | [_] => isTrue trivial
  | a :: b :: rest =>
    haveI := chainAdjDec edges (b :: rest)
    inferInstanceAs (Decidable (Adj edges a b ∧ chainAdj edges (b :: rest)))

/-- `p` is a walk from `s` to `t` along edges of the graph (in either
orientation). -/
def isPath (edges : List Edge) (p : List ℕ) (s t : ℕ) : Prop :=
  p.head? = some s ∧ p.getLast? = some t ∧ chainAdj edges p

instance (edges : List Edge) (p : List ℕ) (s t : ℕ) : Decidable (isPath edges p s t) :=
  inferInstanceAs (Decidable (p.head? = some s ∧ p.getLast? = some t ∧ chainAdj edges p))

/-- `t` can be reached from `s` along edges (in either orientation). -/
def Reachable (edges : List Edge) (s t : ℕ) : Prop := ∃ p, isPath edges p s t

/-- All edge weights of a graph are non-negative. -/
def NonnegWeights (edges : List Edge) : Prop := ∀ e ∈ edges, 0 ≤ e.weight

instance (edges : List Edge) : Decidable (NonnegWeights edges) :=
  inferInstanceAs (Decidable (∀ e ∈ edges, 0 ≤ e.weight))

/-- Position of the newest binding of a key in a score list (a later
`Map.set` conses in front, so a smaller index means a newer binding). -/
def idxOf (m : List (ℕ × ℚ)) (k : ℕ) : ℕ := m.findIdx fun p => decide (p.1 = k)

/-- The set of keys of a score list. -/
def keysF (m : List (ℕ × ℚ)) : Finset ℕ := (m.map Prod.fst).toFinset

/-- Strict order justifying acyclicity of the parent pointers: a parent has
a strictly smaller g-score, or an equal g-score and an older binding. -/
def lexLt (gsc : List (ℕ × ℚ)) (u v : ℕ) : Prop :=
  mgetD gsc u < mgetD gsc v ∨ (mgetD gsc u = mgetD gsc v ∧ idxOf gsc v < idxOf gsc u)

instance (gsc : List (ℕ × ℚ)) (u v : ℕ) : Decidable (lexLt gsc u v) :=
  inferInstanceAs
    (Decidable (mgetD gsc u < mgetD gsc v ∨ (mgetD gsc u = mgetD gsc v ∧ idxOf gsc v < idxOf gsc u)))

/-- Termination rank of a node: its scaled g-score when bound, else one more
than any bound score can be. -/
def rankOf (edges : List Edge) (start : ℕ) (s : AState) (v : ℕ) : ℕ :=
  match mget s.gScore v with
  | some q => natOf (denomLcm edges) q
  | none => gBnd edges start + 1

/-- Sum of all ranks: strictly drops whenever any g-score is set or
improved. -/
def sigmaR (edges : List Edge) (start : ℕ) (s : AState) : ℕ :=
  (allIdsF edges start).sum (rankOf edges start s)

/-- The loop measure: lexicographic (rank sum, open-set size) packed into
one natural. -/
def muM (edges : List Edge) (start : ℕ) (s : AState) : ℕ :=
  sigmaR edges start s * (idCount edges start + 1) + s.openSet.length

/-- The invariant maintained by the A* loop for a fixed edge list, start and
goal (all edge weights non-negative). -/
structure CoreInv (edges : List Edge) (start : ℕ) (s : AState) : Prop where
  openSub : ∀ v ∈ s.openSet, (mget s.gScore v).isSome
  openNodup : s.openSet.Nodup
  openIds : ∀ v ∈ s.openSet, v ∈ allIdsF edges start
  gIds : ∀ p ∈ s.gScore, p.1 ∈ allIdsF edges start
  gNonneg : ∀ p ∈ s.gScore, 0 ≤ p.2
  gInt : ∀ p ∈ s.gScore, (p.2 * (denomLcm edges : ℚ)).den = 1
  gBound : ∀ p ∈ s.gScore, natOf (denomLcm edges) p.2 ≤ (keysF s.gScore).card * maxWN edges
  startG : mget s.gScore start = some 0
  cameG : ∀ p ∈ s.cameFrom, (mget s.gScore p.1).isSome ∧ (mget s.gScore p.2).isSome
  cameAdj : ∀ p ∈ s.cameFrom, Adj edges p.2 p.1
  cameLex : ∀ v u, mget s.cameFrom v = some u → lexLt s.gScore u v
  gOrCame : ∀ p ∈ s.gScore, p.1 = start ∨ (mget s.cameFrom p.1).isSome
  startCame : mget s.cameFrom start = none
  lenEq : s.gScore.length = s.cameFrom.length + 1

/-- The loop invariant proper: the core plus the two facts that only hold
between full node expansions. -/
structure AInv (edges : List Edge) (start goal : ℕ) (s : AState) : Prop where
  core : CoreInv edges start s
  closedRel : ∀ u, (mget s.gScore u).isSome → u ∉ s.openSet →
    ∀ v ∈ neighborIds edges u, (mget s.gScore v).isSome
  goalOpen : (mget s.gScore goal).isSome → goal ∈ s.openSet

/-- Spec-modelled (§3, §4.2 of the spec; the cost model `planning/costs.py`
named by the repository README is not under `src/`): a planner edge with
`base_cost`, `reliability`, mutable `failure_penalty` and `traversable`. -/
structure SEdge where
  efrom : ℕ
  eto : ℕ
  base_cost : ℚ
  reliability : ℚ
  failure_penalty : ℚ
  traversable : Bool
deriving DecidableEq

/-- Modelled from the spec: `effective_cost(edge) = edge.base_cost /
edge.reliability + edge.failure_penalty`. -/
def effective_cost (e : SEdge) : ℚ := e.base_cost / e.reliability + e.failure_penalty

/-- Modelled from the spec: penalizing an edge adds to its penalty
accumulator. -/
def penalize (e : SEdge) (amount : ℚ) : SEdge :=
  { e with failure_penalty := e.failure_penalty + amount }

/-- Penalizing the same edge `n` times. -/
def penalizeIter (e : SEdge) (amount : ℚ) : ℕ → SEdge
  | 0 => e
  | n + 1 => penalize (penalizeIter e amount n) amount

/-- Modelled from the spec: `apply_penalty(from, to, amount)` adds to the
penalty of the edge identified by `(from, to)` and touches nothing else. -/
def apply_penalty (edges : List SEdge) (f t : ℕ) (amount : ℚ) : List SEdge :=
  edges.map fun e => if e.efrom = f ∧ e.eto = t then penalize e amount else e

/-- Modelled from the spec (§4.1 with §4.2): the Graph Store hands planners
only outgoing, traversable edges, so a `traversable = false` edge is never
expanded by any planner. -/
def spec_neighbors (edges : List SEdge) (v : ℕ) : List SEdge :=
  edges.filter fun e => decide (e.efrom = v) && e.traversable

/-- C1 counterexample graph: three collinear nodes; the direct edge 0-2 is
heavier (weight 3) than the detour 0-1-2 (weight 2), but node 1 sits
geometrically far away, so the straight-line heuristic sends the search to
the goal first. -/
def gC1 : Graph :=
  { nodes := [⟨0, 0⟩, ⟨4, 0⟩, ⟨1, 0⟩]
    edges := [⟨0, 1, 1⟩, ⟨1, 2, 1⟩, ⟨0, 2, 3⟩] }

/-- C2 counterexample graph: one single directed edge 0 → 1. -/
def gC2 : Graph :=
  { nodes := [⟨0, 0⟩, ⟨1, 0⟩]
    edges := [⟨0, 1, 1⟩] }

/-- C3 counterexample graph: six nodes and no edges at all, so node 5 is
unreachable from node 0. -/
def gC3 : Graph :=
  { nodes := [⟨0, 0⟩, ⟨0, 0⟩, ⟨0, 0⟩, ⟨0, 0⟩, ⟨0, 0⟩, ⟨5, 0⟩]
    edges := [] }

/-- C4 counterexample graph: from node 0 the two tied frontier nodes 2 and 4
(equal f-score 8, equal g-score 5, ids 2 < 4) lead to the goal 9. -/
def gC4 : Graph :=
  { nodes := [⟨4, 0⟩, ⟨0, 0⟩, ⟨-3, 0⟩, ⟨0, 0⟩, ⟨3, 0⟩, ⟨0, 0⟩, ⟨0, 0⟩, ⟨0, 0⟩, ⟨0, 0⟩, ⟨0, 0⟩]
    edges := [⟨0, 2, 5⟩, ⟨0, 4, 5⟩, ⟨2, 9, 3⟩, ⟨4, 9, 3⟩] }

/-- C6 counterexample graph: goals 1 and 2 are at exactly the same path
distance 1 from start 0. -/
def gC6 : Graph :=
  { nodes := [⟨0, 0⟩, ⟨-1, 0⟩, ⟨1, 0⟩]
    edges := [⟨0, 1, 1⟩, ⟨0, 2, 1⟩] }

/-- C7 counterexample graph: the only edge has weight (base cost) 7, but its
endpoints are at straight-line distance 1. -/
def gC7 : Graph :=
  { nodes := [⟨0, 0⟩, ⟨1, 0⟩]
    edges := [⟨0, 1, 7⟩] }

/-- A small well-behaved witness graph: 0 - 1 - 2 on a line, unit
weights. -/
def gW : Graph :=
  { nodes := [⟨0, 0⟩, ⟨1, 0⟩, ⟨2, 0⟩]
    edges := [⟨0, 1, 1⟩, ⟨1, 2, 1⟩] }

/-- Witness graph for the multi-goal scenario: goal 1 at distance 1, goal 2
at distance 2. -/
def gW6 : Graph :=
  { nodes := [⟨0, 0⟩, ⟨-1, 0⟩, ⟨2, 0⟩]
    edges := [⟨0, 1, 1⟩, ⟨0, 2, 2⟩, ⟨1, 2, 3⟩] }

/-- Rank of a node in the parent-pointer order: how many g-score keys lie
strictly below it; parent chains strictly descend in this rank. -/
def rankL (gsc : List (ℕ × ℚ)) (v : ℕ) : ℕ :=
  ((keysF gsc).filter fun k => lexLt gsc k v).card

/-- Consecutive members of the list are linked by the parent map: each
element is the recorded parent of the next. -/
def chainCame (came : List (ℕ × ℕ)) : List ℕ → Prop
  | a :: b :: rest => mget came b = some a ∧ chainCame came (b :: rest)
  | _ => True

/-! ### Basic lemmas about the association-list maps -/

theorem mget_cons {α : Type} (k : ℕ) (v : α) (m : List (ℕ × α)) (x : ℕ) :
    mget ((k, v) :: m) x = if x = k then some v else mget m x := rfl

theorem mget_mem {α : Type} {m : List (ℕ × α)} {x : ℕ} {v : α}
    (h : mget m x = some v) : (x, v) ∈ m := by
  induction m with
  | nil => simp [mget] at h
  | cons p m ih =>
    obtain ⟨k, w⟩ := p
    rw [mget_cons] at h
    by_cases hx : x = k
    · simp [hx] at h
      simp [hx, h]
    · simp [hx] at h
      exact List.mem_cons_of_mem _ (ih h)

theorem mget_isSome_iff_keysF {m : List (ℕ × ℚ)} {x : ℕ} :
    (mget m x).isSome ↔ x ∈ keysF m := by
  induction m with
  | nil => simp [mget, keysF]
  | cons p m ih =>
    obtain ⟨k, w⟩ := p
    rw [mget_cons]
    by_cases hx : x = k <;> simp [hx, keysF, List.toFinset_cons] at ih ⊢
    exact ih

theorem idxOf_cons_self (k : ℕ) (v : ℚ) (m : List (ℕ × ℚ)) : idxOf ((k, v) :: m) k = 0 := by
  simp [idxOf, List.findIdx_cons]

theorem idxOf_cons_ne (k : ℕ) (v : ℚ) (m : List (ℕ × ℚ)) (x : ℕ) (h : x ≠ k) :
    idxOf ((k, v) :: m) x = idxOf m x + 1 := by
  simp [idxOf, List.findIdx_cons, Ne.symm h]

theorem mgetD_cons_self (k : ℕ) (v : ℚ) (m : List (ℕ × ℚ)) : mgetD ((k, v) :: m) k = v := by
  simp [mgetD, mget_cons]

theorem mgetD_cons_ne (k : ℕ) (v : ℚ) (m : List (ℕ × ℚ)) (x : ℕ) (h : x ≠ k) :
    mgetD ((k, v) :: m) x = mgetD m x := by
  simp [mgetD, mget_cons, h]

/-! ### Arithmetic of the scaled scores -/

theorem int_cast_of_den_one {r : ℚ} (h : r.den = 1) : (r.num : ℚ) = r :=
  (Rat.den_eq_one_iff r).mp h

theorem mul_den_one_of_dvd {q : ℚ} {d : ℕ} (h : q.den ∣ d) : (q * (d : ℚ)).den = 1 := by
  obtain ⟨k, hk⟩ := h
  have hden : (q.den : ℚ) ≠ 0 := by
    exact_mod_cast q.den_nz
  have hq : (q.num : ℚ) = q * (q.den : ℚ) :=
    (div_eq_iff hden).mp (Rat.num_div_den q)
  have h1 : q * (d : ℚ) = ((q.num * k : ℤ) : ℚ) := by
    rw [hk]
    push_cast
    rw [hq]
    ring
  rw [h1, Rat.den_intCast]

theorem den_one_add {a b : ℚ} (ha : a.den = 1) (hb : b.den = 1) : (a + b).den = 1 := by
  have : a + b = ((a.num + b.num : ℤ) : ℚ) := by
    push_cast
    rw [int_cast_of_den_one ha, int_cast_of_den_one hb]
  rw [this, Rat.den_intCast]

theorem natOf_add {d : ℕ} {q w : ℚ} (hq : 0 ≤ q) (hw : 0 ≤ w)
    (h1 : (q * (d : ℚ)).den = 1) (h2 : (w * (d : ℚ)).den = 1) :
    natOf d (q + w) = natOf d q + natOf d w := by
  unfold natOf
  have hmul : (q + w) * (d : ℚ) = q * (d : ℚ) + w * (d : ℚ) := by ring
  have hnum : ((q + w) * (d : ℚ)).num = (q * (d : ℚ)).num + (w * (d : ℚ)).num := by
    rw [hmul]
    have : q * (d : ℚ) + w * (d : ℚ) = (((q * (d : ℚ)).num + (w * (d : ℚ)).num : ℤ) : ℚ) := by
      push_cast
      rw [int_cast_of_den_one h1, int_cast_of_den_one h2]
    rw [this, Rat.num_intCast]
  rw [hnum]
  have hqn : 0 ≤ (q * (d : ℚ)).num := Rat.num_nonneg.mpr (by positivity)
  have hwn : 0 ≤ (w * (d : ℚ)).num := Rat.num_nonneg.mpr (by positivity)
  omega

theorem natOf_lt_natOf {d : ℕ} {q q' : ℚ} (hq : 0 ≤ q) (hd : 0 < d)
    (h1 : (q * (d : ℚ)).den = 1) (h1' : (q' * (d : ℚ)).den = 1) (hlt : q < q') :
    natOf d q < natOf d q' := by
  unfold natOf
  have hdq : (0 : ℚ) < (d : ℚ) := by exact_mod_cast hd
  have hm : q * (d : ℚ) < q' * (d : ℚ) := mul_lt_mul_of_pos_right hlt hdq
  have hab : (q * (d : ℚ)).num < (q' * (d : ℚ)).num := by
    have hcast : (((q * (d : ℚ)).num : ℤ) : ℚ) < (((q' * (d : ℚ)).num : ℤ) : ℚ) := by
      rw [int_cast_of_den_one h1, int_cast_of_den_one h1']
      exact hm
    exact_mod_cast hcast
  have hqn : 0 ≤ (q * (d : ℚ)).num := Rat.num_nonneg.mpr (by positivity)
  omega

theorem le_foldr_max {l : List Edge} {f : Edge → ℕ} {x : Edge} (hx : x ∈ l) :
    f x ≤ l.foldr (fun e a => max (f e) a) 0 := by
  induction l with
  | nil => simp at hx
  | cons e es ih =>
    rcases List.mem_cons.mp hx with h | h
    · subst h; simp
    · simp only [List.foldr_cons]
      exact le_max_of_le_right (ih h)

theorem dvd_foldr_lcm {l : List Edge} {f : Edge → ℕ} {x : Edge} (hx : x ∈ l) :
    f x ∣ l.foldr (fun e a => Nat.lcm (f e) a) 1 := by
  induction l with
  | nil => simp at hx
  | cons e es ih =>
    rcases List.mem_cons.mp hx with h | h
    · subst h; simp only [List.foldr_cons]; exact Nat.dvd_lcm_left _ _
    · simp only [List.foldr_cons]
      exact dvd_trans (ih h) (Nat.dvd_lcm_right _ _)

theorem den_dvd_denomLcm {edges : List Edge} {e : Edge} (he : e ∈ edges) :
    e.weight.den ∣ denomLcm edges :=
  dvd_foldr_lcm (f := fun e => e.weight.den) he

theorem denomLcm_pos (edges : List Edge) : 0 < denomLcm edges := by
  unfold denomLcm
  induction edges with
  | nil => simp
  | cons e es ih =>
    simp only [List.foldr_cons]
    exact Nat.lcm_pos e.weight.den_pos ih

theorem weight_den_one {edges : List Edge} {e : Edge} (he : e ∈ edges) :
    (e.weight * (denomLcm edges : ℚ)).den = 1 :=
  mul_den_one_of_dvd (den_dvd_denomLcm he)

theorem natOf_weight_le_maxWN {edges : List Edge} {e : Edge} (he : e ∈ edges) :
    natOf (denomLcm edges) e.weight ≤ maxWN edges :=
  le_foldr_max (f := fun e => natOf (denomLcm edges) e.weight) he

/-! ### Neighbor expansion and adjacency -/

theorem mem_neighborIds_iff {edges : List Edge} {u v : ℕ} :
    v ∈ neighborIds edges u ↔ Adj edges u v := by
  unfold neighborIds Adj
  simp only [List.mem_map, List.mem_filter, decide_eq_true_eq]
  constructor
  · rintro ⟨e, ⟨he, hor⟩, hv⟩
    rcases hor with h | h
    · refine ⟨e, he, Or.inl ⟨h, ?_⟩⟩
      simpa [h] using hv
    · by_cases hfrom : e.efrom = u
      · refine ⟨e, he, Or.inl ⟨hfrom, ?_⟩⟩
        simpa [hfrom] using hv
      · refine ⟨e, he, Or.inr ⟨?_, h⟩⟩
        simpa [hfrom] using hv
  · rintro ⟨e, he, hor⟩
    rcases hor with ⟨h1, h2⟩ | ⟨h1, h2⟩
    · exact ⟨e, ⟨he, Or.inl h1⟩, by simp [h1, h2]⟩
    · by_cases hfrom : e.efrom = u
      · refine ⟨e, ⟨he, Or.inl hfrom⟩, ?_⟩
        rw [if_pos hfrom, h2, ← hfrom, h1]
      · refine ⟨e, ⟨he, Or.inr h2⟩, ?_⟩
        rw [if_neg hfrom, h1]

theorem findEdge_some {edges : List Edge} {c n : ℕ} {e : Edge}
    (h : findEdge edges c n = some e) :
    e ∈ edges ∧ ((e.efrom = c ∧ e.eto = n) ∨ (e.eto = c ∧ e.efrom = n)) := by
  unfold findEdge at h
  refine ⟨List.mem_of_find?_eq_some h, ?_⟩
  have := List.find?_some h
  simpa [decide_eq_true_eq] using this

theorem findEdge_isSome_of_adj {edges : List Edge} {c n : ℕ} (h : Adj edges c n) :
    (findEdge edges c n).isSome := by
  obtain ⟨e, he, hor⟩ := h
  unfold findEdge
  rw [List.find?_isSome]
  refine ⟨e, he, ?_⟩
  simp only [decide_eq_true_eq]
  tauto

theorem findEdge_some_adj {edges : List Edge} {c n : ℕ} {e : Edge}
    (h : findEdge edges c n = some e) : Adj edges c n := by
  obtain ⟨he, hor⟩ := findEdge_some h
  exact ⟨e, he, by tauto⟩

/-! ### Membership in the id universe -/

theorem start_mem_allIdsF (edges : List Edge) (start : ℕ) : start ∈ allIdsF edges start := by
  simp [allIdsF, allIdsList]

theorem endpoint_mem_allIdsF {edges : List Edge} {e : Edge} (start : ℕ) (he : e ∈ edges) :
    e.efrom ∈ allIdsF edges start ∧ e.eto ∈ allIdsF edges start := by
  unfold allIdsF allIdsList
  induction edges with
  | nil => simp at he
  | cons x xs ih =>
    rcases List.mem_cons.mp he with h | h
    · subst h; simp
    · have := ih h
      simp only [List.foldr_cons, List.toFinset_cons, Finset.mem_insert, List.mem_toFinset] at this ⊢
      tauto

theorem mem_allIdsF_of_adj {edges : List Edge} {u v : ℕ} (start : ℕ) (h : Adj edges u v) :
    v ∈ allIdsF edges start := by
  obtain ⟨e, he, hor⟩ := h
  have := endpoint_mem_allIdsF start he
  rcases hor with ⟨_, h2⟩ | ⟨h1, _⟩
  · rw [← h2]; exact this.2
  · rw [← h1]; exact this.1

theorem keysF_cons (k : ℕ) (v : ℚ) (m : List (ℕ × ℚ)) :
    keysF ((k, v) :: m) = insert k (keysF m) := by
  simp [keysF]

theorem keysF_subset_allIdsF {edges : List Edge} {start : ℕ} {s : AState}
    (c : CoreInv edges start s) : keysF s.gScore ⊆ allIdsF edges start := by
  intro x hx
  rw [← mget_isSome_iff_keysF] at hx
  obtain ⟨q, hq⟩ := Option.isSome_iff_exists.mp hx
  exact c.gIds _ (mget_mem hq)

/-! ### The two shapes of a relaxation step -/

theorem relax_cases (h : ℕ → ℚ) (edges : List Edge) (current : ℕ) (s : AState) (n : ℕ) :
    relax h edges current s n = s ∨
    ∃ e, findEdge edges current n = some e ∧
      (mget s.gScore n = none ∨
        ∃ gn, mget s.gScore n = some gn ∧ mgetD s.gScore current + e.weight < gn) ∧
      relax h edges current s n =
        { openSet := if n ∈ s.openSet then s.openSet else s.openSet ++ [n]
          cameFrom := (n, current) :: s.cameFrom
          gScore := (n, mgetD s.gScore current + e.weight) :: s.gScore
          fScore := (n, mgetD s.gScore current + e.weight + h n) :: s.fScore } := by
  unfold relax
  cases hfe : findEdge edges current n with
  | none => exact Or.inl rfl
  | some e =>
    simp only
    cases hg : mget s.gScore n with
    | none => exact Or.inr ⟨e, rfl, Or.inl rfl, by simp⟩
    | some gn =>
      by_cases hlt : mgetD s.gScore current + e.weight < gn
      · exact Or.inr ⟨e, rfl, Or.inr ⟨gn, rfl, hlt⟩, by simp [hlt]⟩
      · exact Or.inl (by simp [hlt])

theorem relax_open_subset (h : ℕ → ℚ) (edges : List Edge) (current : ℕ) (s : AState) (n : ℕ) :
    ∀ x ∈ s.openSet, x ∈ (relax h edges current s n).openSet := by
  intro x hx
  rcases relax_cases h edges current s n with hc | ⟨e, _, _, hc⟩ <;> rw [hc]
  · exact hx
  · by_cases hn : n ∈ s.openSet <;> simp [hn, hx]

theorem relax_g_mono (h : ℕ → ℚ) (edges : List Edge) (current : ℕ) (s : AState) (n : ℕ)
    {x : ℕ} (hx : (mget s.gScore x).isSome) : (mget (relax h edges current s n).gScore x).isSome := by
  rcases relax_cases h edges current s n with hc | ⟨e, _, _, hc⟩ <;> rw [hc]
  · exact hx
  · by_cases hxn : x = n <;> simp [mget_cons, hxn, hx]

theorem relax_new_key_open (h : ℕ → ℚ) (edges : List Edge) (current : ℕ) (s : AState) (n : ℕ)
    {x : ℕ} (hx : (mget (relax h edges current s n).gScore x).isSome) :
    (mget s.gScore x).isSome ∨ x ∈ (relax h edges current s n).openSet := by
  rcases relax_cases h edges current s n with hc | ⟨e, _, _, hc⟩ <;> rw [hc] at hx ⊢
  · exact Or.inl hx
  · by_cases hxn : x = n
    · subst hxn
      right
      by_cases hn : x ∈ s.openSet <;> simp [hn]
    · rw [mget_cons] at hx
      simp [hxn] at hx
      exact Or.inl hx

theorem relax_sets (h : ℕ → ℚ) (edges : List Edge) (current : ℕ) (s : AState) {n : ℕ}
    (hn : n ∈ neighborIds edges current) :
    (mget (relax h edges current s n).gScore n).isSome := by
  have hadj := mem_neighborIds_iff.mp hn
  obtain ⟨e, he⟩ := Option.isSome_iff_exists.mp (findEdge_isSome_of_adj hadj)
  unfold relax
  rw [he]
  simp only
  cases hg : mget s.gScore n with
  | none => simp [mget_cons]
  | some gn =>
    by_cases hlt : mgetD s.gScore current + e.weight < gn
    · simp [hlt, mget_cons]
    · simp [hlt, hg]

theorem selectCurrent_mem (f : List (ℕ × ℚ)) (x : ℕ) (xs : List ℕ) :
    selectCurrent f (x :: xs) ∈ x :: xs := by
  unfold selectCurrent
  suffices hsuf : ∀ l a, l.foldl (fun a b => if mgetD f a < mgetD f b then a else b) a ∈ a :: l by
    exact hsuf xs x
  intro l
  induction l with
  | nil => simp
  | cons y ys ih =>
    intro a
    simp only [List.foldl_cons]
    by_cases hy : mgetD f a < mgetD f y
    · rw [if_pos hy]
      have := ih a
      simp at this ⊢
      tauto
    · rw [if_neg hy]
      have := ih y
      simp at this ⊢
      tauto

/-! ### Preservation of the core invariant by one relaxation -/

theorem mgetD_eq_of_mget {m : List (ℕ × ℚ)} {k : ℕ} {q : ℚ} (h : mget m k = some q) :
    mgetD m k = q := by simp [mgetD, h]

theorem relax_core {h : ℕ → ℚ} {edges : List Edge} {start current : ℕ} {s : AState} {n : ℕ}
    (HW : NonnegWeights edges) (c : CoreInv edges start s)
    (hn : n ∈ neighborIds edges current) (hcur : (mget s.gScore current).isSome) :
    CoreInv edges start (relax h edges current s n) := by
  rcases relax_cases h edges current s n with hc | ⟨e, he, hup, hc⟩
  · rw [hc]; exact c
  obtain ⟨q, hq⟩ := Option.isSome_iff_exists.mp hcur
  obtain ⟨heE, hor⟩ := findEdge_some he
  have hw : 0 ≤ e.weight := HW e heE
  have hqD : mgetD s.gScore current = q := mgetD_eq_of_mget hq
  have hqmem : (current, q) ∈ s.gScore := mget_mem hq
  have hq0 : 0 ≤ q := c.gNonneg _ hqmem
  have hqden : (q * (denomLcm edges : ℚ)).den = 1 := c.gInt _ hqmem
  have hqbnd : natOf (denomLcm edges) q ≤ (keysF s.gScore).card * maxWN edges :=
    c.gBound _ hqmem
  have ht0 : 0 ≤ mgetD s.gScore current + e.weight := by rw [hqD]; positivity
  have htden : ((mgetD s.gScore current + e.weight) * (denomLcm edges : ℚ)).den = 1 := by
    rw [hqD]
    have h1 := den_one_add hqden (weight_den_one heE)
    rwa [show q * (denomLcm edges : ℚ) + e.weight * (denomLcm edges : ℚ)
        = (q + e.weight) * (denomLcm edges : ℚ) by ring] at h1
  have hncur : n ≠ current := by
    rcases hup with hnone | ⟨gn, hgn, hlt⟩
    · intro heq; rw [heq, hq] at hnone; exact Option.noConfusion hnone
    · intro heq
      rw [heq, hq] at hgn
      have hgnq : gn = q := by injection hgn.symm
      rw [hgnq, hqD] at hlt
      linarith
  have hnstart : n ≠ start := by
    rcases hup with hnone | ⟨gn, hgn, hlt⟩
    · intro heq; rw [heq, c.startG] at hnone; exact Option.noConfusion hnone
    · intro heq
      rw [heq, c.startG] at hgn
      have hgn0 : gn = 0 := by injection hgn.symm
      rw [hgn0] at hlt
      linarith
  have hnIds : n ∈ allIdsF edges start :=
    mem_allIdsF_of_adj start (findEdge_some_adj he)
  have hnatt : natOf (denomLcm edges) (mgetD s.gScore current + e.weight)
      ≤ ((keysF s.gScore).card + 1) * maxWN edges := by
    rw [hqD, natOf_add hq0 hw hqden (weight_den_one heE)]
    have h2 := natOf_weight_le_maxWN heE
    calc natOf (denomLcm edges) q + natOf (denomLcm edges) e.weight
        ≤ (keysF s.gScore).card * maxWN edges + maxWN edges := by omega
      _ = ((keysF s.gScore).card + 1) * maxWN edges := by ring
  rw [hc]
  constructor
  case openSub =>
    intro v hv
    by_cases hvn : v = n
    · simp [mget_cons, hvn]
    · have hvold : v ∈ s.openSet := by
        by_cases hmem : n ∈ s.openSet
        · rw [if_pos hmem] at hv; exact hv
        · rw [if_neg hmem] at hv
          rcases List.mem_append.mp hv with h1 | h1
          · exact h1
          · simp at h1; exact absurd h1 hvn
      have := c.openSub v hvold
      simp [mget_cons, hvn, this]
  case openNodup =>
    by_cases hmem : n ∈ s.openSet
    · rw [if_pos hmem]; exact c.openNodup
    · rw [if_neg hmem]
      simp [List.nodup_append, c.openNodup, hmem]
  case openIds =>
    intro v hv
    by_cases hmem : n ∈ s.openSet
    · rw [if_pos hmem] at hv; exact c.openIds v hv
    · rw [if_neg hmem] at hv
      rcases List.mem_append.mp hv with h1 | h1
      · exact c.openIds v h1
      · simp at h1; rw [h1]; exact hnIds
  case gIds =>
    intro p hp
    rcases List.mem_cons.mp hp with h1 | h1
    · rw [h1]; exact hnIds
    · exact c.gIds p h1
  case gNonneg =>
    intro p hp
    rcases List.mem_cons.mp hp with h1 | h1
    · rw [h1]; exact ht0
    · exact c.gNonneg p h1
  case gInt =>
    intro p hp
    rcases List.mem_cons.mp hp with h1 | h1
    · rw [h1]; exact htden
    · exact c.gInt p h1
  case gBound =>
    intro p hp
    rw [keysF_cons]
    rcases hup with hnone | ⟨gn, hgn, hlt⟩
    · have hnotin : n ∉ keysF s.gScore := by
        rw [← mget_isSome_iff_keysF, hnone]
        simp
      rw [Finset.card_insert_of_not_mem hnotin]
      rcases List.mem_cons.mp hp with h1 | h1
      · rw [h1]; exact hnatt
      · have := c.gBound p h1
        have hmw : (keysF s.gScore).card * maxWN edges
            ≤ ((keysF s.gScore).card + 1) * maxWN edges := by
          have : maxWN edges ≤ maxWN edges := le_refl _
          nlinarith
        omega
    · have hin : n ∈ keysF s.gScore := by
        rw [← mget_isSome_iff_keysF, hgn]; simp
      rw [Finset.insert_eq_self.mpr hin]
      rcases List.mem_cons.mp hp with h1 | h1
      · rw [h1]
        have hgnmem : (n, gn) ∈ s.gScore := mget_mem hgn
        have hgnden : (gn * (denomLcm edges : ℚ)).den = 1 := c.gInt _ hgnmem
        have hlt2 : natOf (denomLcm edges) (mgetD s.gScore current + e.weight)
            < natOf (denomLcm edges) gn :=
          natOf_lt_natOf ht0 (denomLcm_pos edges) htden hgnden hlt
        have hb2 : natOf (denomLcm edges) gn ≤ (keysF s.gScore).card * maxWN edges :=
          c.gBound _ hgnmem
        show natOf (denomLcm edges) (mgetD s.gScore current + e.weight)
            ≤ (keysF s.gScore).card * maxWN edges
        omega
      · exact c.gBound p h1
  case startG => simp [mget_cons, Ne.symm hnstart, c.startG]
  case cameG =>
    intro p hp
    rcases List.mem_cons.mp hp with h1 | h1
    · rw [h1]
      constructor
      · simp [mget_cons]
      · simp [mget_cons, hncur.symm ∘ Eq.symm]
        by_cases hcn : current = n
        · exact absurd hcn.symm hncur
        · simp [hcn, hq]
    · have := c.cameG p h1
      constructor <;> [skip; skip] <;>
        [ (by_cases hx : p.1 = n <;> simp [mget_cons, hx, this.1]);
          (by_cases hx : p.2 = n <;> simp [mget_cons, hx, this.2])]
  case cameAdj =>
    intro p hp
    rcases List.mem_cons.mp hp with h1 | h1
    · rw [h1]; exact findEdge_some_adj he
    · exact c.cameAdj p h1
  case cameLex =>
    intro v u hv
    rw [mget_cons] at hv
    by_cases hvn : v = n
    · rw [if_pos hvn] at hv
      have hu : current = u := by injection hv
      rw [← hu, hvn]
      unfold lexLt
      have hglc : mgetD ((n, mgetD s.gScore current + e.weight) :: s.gScore) current
          = mgetD s.gScore current := mgetD_cons_ne _ _ _ _ (Ne.symm hncur)
      have hgln : mgetD ((n, mgetD s.gScore current + e.weight) :: s.gScore) n
          = mgetD s.gScore current + e.weight := mgetD_cons_self _ _ _
      by_cases hwpos : 0 < e.weight
      · left
        rw [hglc, hgln]
        linarith
      · have hweq : e.weight = 0 := le_antisymm (not_lt.mp hwpos) hw
        right
        constructor
        · rw [hglc, hgln, hweq, add_zero]
        · rw [idxOf_cons_self, idxOf_cons_ne _ _ _ _ (Ne.symm hncur)]
          omega
    · rw [if_neg hvn] at hv
      have hold := c.cameLex v u hv
      have hpmem : (v, u) ∈ s.cameFrom := mget_mem hv
      have hvg := (c.cameG _ hpmem).1
      have hug := (c.cameG _ hpmem).2
      unfold lexLt at hold ⊢
      have hglv : mgetD ((n, mgetD s.gScore current + e.weight) :: s.gScore) v
          = mgetD s.gScore v := mgetD_cons_ne _ _ _ _ hvn
      by_cases hun : u = n
      · subst hun
        obtain ⟨gn, hgn, hlt⟩ : ∃ gn, mget s.gScore u = some gn
            ∧ mgetD s.gScore current + e.weight < gn := by
          rcases hup with hnone | hstrict
          · rw [hnone] at hug; simp at hug
          · exact hstrict
        left
        rw [hglv, mgetD_cons_self]
        have hgnD : mgetD s.gScore u = gn := mgetD_eq_of_mget hgn
        have hle : mgetD s.gScore u ≤ mgetD s.gScore v := by
          rcases hold with h1 | ⟨h1, -⟩
          · exact le_of_lt h1
          · exact le_of_eq h1
        rw [hgnD] at hle
        linarith
      · rw [hglv, mgetD_cons_ne _ _ _ _ hun]
        rcases hold with h1 | ⟨h1, h2⟩
        · exact Or.inl h1
        · right
          refine ⟨h1, ?_⟩
          rw [idxOf_cons_ne _ _ _ _ hvn, idxOf_cons_ne _ _ _ _ hun]
          omega
  case gOrCame =>
    intro p hp
    rcases List.mem_cons.mp hp with h1 | h1
    · right; rw [h1]; simp [mget_cons]
    · rcases c.gOrCame p h1 with h2 | h2
      · exact Or.inl h2
      · right
        by_cases hx : p.1 = n <;> simp [mget_cons, hx, h2]
  case startCame => simp [mget_cons, Ne.symm hnstart, c.startCame]
  case lenEq => simp [c.lenEq]

/-! ### Folding relaxations over the whole neighbor list -/

theorem erase_core {edges : List Edge} {start : ℕ} {s : AState}
    (c : CoreInv edges start s) (x : ℕ) :
    CoreInv edges start { s with openSet := s.openSet.erase x } := by
  constructor
  case openSub => intro v hv; exact c.openSub v (List.mem_of_mem_erase hv)
  case openNodup => exact c.openNodup.erase x
  case openIds => intro v hv; exact c.openIds v (List.mem_of_mem_erase hv)
  case gIds => exact c.gIds
  case gNonneg => exact c.gNonneg
  case gInt => exact c.gInt
  case gBound => exact c.gBound
  case startG => exact c.startG
  case cameG => exact c.cameG
  case cameAdj => exact c.cameAdj
  case cameLex => exact c.cameLex
  case gOrCame => exact c.gOrCame
  case startCame => exact c.startCame
  case lenEq => exact c.lenEq

theorem foldl_relax_core {h : ℕ → ℚ} {edges : List Edge} {start current : ℕ}
    (HW : NonnegWeights edges) :
    ∀ (l : List ℕ) (s0 : AState), CoreInv edges start s0 →
      (∀ n ∈ l, n ∈ neighborIds edges current) →
      (mget s0.gScore current).isSome →
      CoreInv edges start (l.foldl (relax h edges current) s0) ∧
        (mget (l.foldl (relax h edges current) s0).gScore current).isSome := by
  intro l
  induction l with
  | nil => intro s0 c _ hcur; exact ⟨c, hcur⟩
  | cons n l ih =>
    intro s0 c hl hcur
    simp only [List.foldl_cons]
    have hn := hl n (List.mem_cons_self n l)
    exact ih (relax h edges current s0 n)
      (relax_core HW c hn hcur)
      (fun m hm => hl m (List.mem_cons_of_mem n hm))
      (relax_g_mono h edges current s0 n hcur)

theorem foldl_open_subset (h : ℕ → ℚ) (edges : List Edge) (current : ℕ) :
    ∀ (l : List ℕ) (s0 : AState) (x : ℕ), x ∈ s0.openSet →
      x ∈ (l.foldl (relax h edges current) s0).openSet := by
  intro l
  induction l with
  | nil => intro s0 x hx; exact hx
  | cons n l ih =>
    intro s0 x hx
    simp only [List.foldl_cons]
    exact ih _ x (relax_open_subset h edges current s0 n x hx)

theorem foldl_g_mono (h : ℕ → ℚ) (edges : List Edge) (current : ℕ) :
    ∀ (l : List ℕ) (s0 : AState) (x : ℕ), (mget s0.gScore x).isSome →
      (mget ((l.foldl (relax h edges current) s0)).gScore x).isSome := by
  intro l
  induction l with
  | nil => intro s0 x hx; exact hx
  | cons n l ih =>
    intro s0 x hx
    simp only [List.foldl_cons]
    exact ih _ x (relax_g_mono h edges current s0 n hx)

theorem foldl_new_key_open (h : ℕ → ℚ) (edges : List Edge) (current : ℕ) :
    ∀ (l : List ℕ) (s0 : AState) (x : ℕ),
      (mget ((l.foldl (relax h edges current) s0)).gScore x).isSome →
      (mget s0.gScore x).isSome ∨ x ∈ (l.foldl (relax h edges current) s0).openSet := by
  intro l
  induction l with
  | nil => intro s0 x hx; exact Or.inl hx
  | cons n l ih =>
    intro s0 x hx
    simp only [List.foldl_cons] at hx ⊢
    rcases ih _ x hx with h1 | h1
    · rcases relax_new_key_open h edges current s0 n h1 with h2 | h2
      · exact Or.inl h2
      · exact Or.inr (foldl_open_subset h edges current l _ x h2)
    · exact Or.inr h1

theorem foldl_sets_all (h : ℕ → ℚ) (edges : List Edge) (current : ℕ) :
    ∀ (l : List ℕ) (s0 : AState),
      (∀ n ∈ l, n ∈ neighborIds edges current) →
      ∀ n ∈ l, (mget ((l.foldl (relax h edges current) s0)).gScore n).isSome := by
  intro l
  induction l with
  | nil => intro s0 _ n hn; simp at hn
  | cons m l ih =>
    intro s0 hl n hn
    simp only [List.foldl_cons]
    rcases List.mem_cons.mp hn with h1 | h1
    · subst h1
      exact foldl_g_mono h edges current l _ n
        (relax_sets h edges current s0 (hl n (List.mem_cons_self n l)))
    · exact ih _ (fun m hm => hl m (List.mem_cons_of_mem _ hm)) n h1

/-! ### Preservation of the full invariant by one expansion -/

theorem expand_ainv {h : ℕ → ℚ} {edges : List Edge} {start goal current : ℕ} {s : AState}
    (HW : NonnegWeights edges) (inv : AInv edges start goal s)
    (hcur : current ∈ s.openSet) (hgoal : current ≠ goal) :
    AInv edges start goal (expand h edges current s) := by
  have hcg : (mget s.gScore current).isSome := inv.core.openSub current hcur
  have c1 : CoreInv edges start { s with openSet := s.openSet.erase current } :=
    erase_core inv.core current
  have hneigh : ∀ n ∈ neighborIds edges current, n ∈ neighborIds edges current := fun n hn => hn
  have hfold := @foldl_relax_core h edges start current HW (neighborIds edges current)
    { s with openSet := s.openSet.erase current } c1 hneigh hcg
  constructor
  case core => exact hfold.1
  case closedRel =>
    intro u hgu hnotopen v hv
    by_cases hu : u = current
    · subst hu
      exact foldl_sets_all h edges u (neighborIds edges u) _ hneigh v hv
    · have hnot0 : u ∉ ({ s with openSet := s.openSet.erase current } : AState).openSet := by
        intro hmem
        exact hnotopen (foldl_open_subset h edges current _ _ u hmem)
      have hnotS : u ∉ s.openSet := by
        intro hmem
        exact hnot0 ((List.mem_erase_of_ne hu).mpr hmem)
      have hguS : (mget s.gScore u).isSome := by
        rcases foldl_new_key_open h edges current _ _ u hgu with h1 | h1
        · exact h1
        · exact absurd h1 hnotopen
      have := inv.closedRel u hguS hnotS v hv
      exact foldl_g_mono h edges current _ _ v this
  case goalOpen =>
    intro hgg
    rcases foldl_new_key_open h edges current _ _ goal hgg with h1 | h1
    · have hgS : goal ∈ s.openSet := inv.goalOpen h1
      have : goal ∈ s.openSet.erase current := (List.mem_erase_of_ne (Ne.symm hgoal)).mpr hgS
      exact foldl_open_subset h edges current _ _ goal this
    · exact h1

/-! ### The termination measure -/

theorem rankOf_congr {edges : List Edge} {start : ℕ} {s1 s2 : AState} {v : ℕ}
    (h : mget s1.gScore v = mget s2.gScore v) :
    rankOf edges start s1 v = rankOf edges start s2 v := by
  unfold rankOf
  rw [h]

theorem keysCard_le {edges : List Edge} {start : ℕ} {s : AState}
    (c : CoreInv edges start s) : (keysF s.gScore).card ≤ idCount edges start :=
  Finset.card_le_card (keysF_subset_allIdsF c)

theorem rank_of_key_le {edges : List Edge} {start : ℕ} {s : AState}
    (c : CoreInv edges start s) {v : ℕ} {q : ℚ} (hq : mget s.gScore v = some q) :
    rankOf edges start s v ≤ gBnd edges start := by
  unfold rankOf
  rw [hq]
  have h1 : natOf (denomLcm edges) q ≤ (keysF s.gScore).card * maxWN edges :=
    c.gBound _ (mget_mem hq)
  have h2 : (keysF s.gScore).card ≤ idCount edges start := keysCard_le c
  calc natOf (denomLcm edges) q ≤ (keysF s.gScore).card * maxWN edges := h1
    _ ≤ idCount edges start * maxWN edges := Nat.mul_le_mul_right _ h2
    _ = gBnd edges start := rfl

theorem rankOf_le {edges : List Edge} {start : ℕ} {s : AState}
    (c : CoreInv edges start s) (v : ℕ) : rankOf edges start s v ≤ gBnd edges start + 1 := by
  cases hq : mget s.gScore v with
  | none => unfold rankOf; rw [hq]
  | some q => exact le_trans (rank_of_key_le c hq) (Nat.le_succ _)

theorem relax_rank_le {h : ℕ → ℚ} {edges : List Edge} {start current : ℕ} {s : AState} {n : ℕ}
    (HW : NonnegWeights edges) (c : CoreInv edges start s)
    (hn : n ∈ neighborIds edges current) (hcur : (mget s.gScore current).isSome) :
    ∀ v, rankOf edges start (relax h edges current s n) v ≤ rankOf edges start s v := by
  intro v
  have cU : CoreInv edges start (relax h edges current s n) := relax_core HW c hn hcur
  rcases relax_cases h edges current s n with hc | ⟨e, he, hup, hc⟩
  · rw [hc]
  by_cases hvn : v = n
  · rw [hvn]
    have hnewg : mget (relax h edges current s n).gScore n
        = some (mgetD s.gScore current + e.weight) := by
      rw [hc]; simp [mget_cons]
    have hle : rankOf edges start (relax h edges current s n) n ≤ gBnd edges start :=
      rank_of_key_le cU hnewg
    rcases hup with hnone | ⟨gn, hgn, hlt⟩
    · have : rankOf edges start s n = gBnd edges start + 1 := by
        unfold rankOf; rw [hnone]
      omega
    · have hr1 : rankOf edges start (relax h edges current s n) n
          = natOf (denomLcm edges) (mgetD s.gScore current + e.weight) := by
        unfold rankOf; rw [hnewg]
      have hr2 : rankOf edges start s n = natOf (denomLcm edges) gn := by
        unfold rankOf; rw [hgn]
      obtain ⟨q, hq⟩ := Option.isSome_iff_exists.mp hcur
      have hqD : mgetD s.gScore current = q := mgetD_eq_of_mget hq
      have hq0 : 0 ≤ q := c.gNonneg _ (mget_mem hq)
      have ht0 : 0 ≤ mgetD s.gScore current + e.weight := by
        rw [hqD]
        have hw : 0 ≤ e.weight := HW e (findEdge_some he).1
        positivity
      have hqden2 : (q * (denomLcm edges : ℚ)).den = 1 := c.gInt _ (mget_mem hq)
      have htden : ((mgetD s.gScore current + e.weight) * (denomLcm edges : ℚ)).den = 1 := by
        rw [hqD]
        have h1 := den_one_add hqden2 (weight_den_one (findEdge_some he).1)
        rwa [show q * (denomLcm edges : ℚ) + e.weight * (denomLcm edges : ℚ)
            = (q + e.weight) * (denomLcm edges : ℚ) by ring] at h1
      have hgnden : (gn * (denomLcm edges : ℚ)).den = 1 := c.gInt _ (mget_mem hgn)
      have := natOf_lt_natOf ht0 (denomLcm_pos edges) htden hgnden hlt
      omega
  · have : mget (relax h edges current s n).gScore v = mget s.gScore v := by
      rw [hc]; simp [mget_cons, hvn]
    rw [rankOf_congr this]

theorem relax_rank_cases {h : ℕ → ℚ} {edges : List Edge} {start current : ℕ} {s : AState} {n : ℕ}
    (HW : NonnegWeights edges) (c : CoreInv edges start s)
    (hn : n ∈ neighborIds edges current) (hcur : (mget s.gScore current).isSome) :
    relax h edges current s n = s ∨
      rankOf edges start (relax h edges current s n) n < rankOf edges start s n := by
  have cU : CoreInv edges start (relax h edges current s n) := relax_core HW c hn hcur
  rcases relax_cases h edges current s n with hc | ⟨e, he, hup, hc⟩
  · exact Or.inl hc
  right
  have hnewg : mget (relax h edges current s n).gScore n
      = some (mgetD s.gScore current + e.weight) := by
    rw [hc]; simp [mget_cons]
  have hle : rankOf edges start (relax h edges current s n) n ≤ gBnd edges start :=
    rank_of_key_le cU hnewg
  rcases hup with hnone | ⟨gn, hgn, hlt⟩
  · have : rankOf edges start s n = gBnd edges start + 1 := by
      unfold rankOf; rw [hnone]
    omega
  · have hr1 : rankOf edges start (relax h edges current s n) n
        = natOf (denomLcm edges) (mgetD s.gScore current + e.weight) := by
      unfold rankOf; rw [hnewg]
    have hr2 : rankOf edges start s n = natOf (denomLcm edges) gn := by
      unfold rankOf; rw [hgn]
    obtain ⟨q, hq⟩ := Option.isSome_iff_exists.mp hcur
    have hqD : mgetD s.gScore current = q := mgetD_eq_of_mget hq
    have hq0 : 0 ≤ q := c.gNonneg _ (mget_mem hq)
    have ht0 : 0 ≤ mgetD s.gScore current + e.weight := by
      rw [hqD]
      have hw : 0 ≤ e.weight := HW e (findEdge_some he).1
      positivity
    have hqden2 : (q * (denomLcm edges : ℚ)).den = 1 := c.gInt _ (mget_mem hq)
    have htden : ((mgetD s.gScore current + e.weight) * (denomLcm edges : ℚ)).den = 1 := by
      rw [hqD]
      have h1 := den_one_add hqden2 (weight_den_one (findEdge_some he).1)
      rwa [show q * (denomLcm edges : ℚ) + e.weight * (denomLcm edges : ℚ)
          = (q + e.weight) * (denomLcm edges : ℚ) by ring] at h1
    have hgnden : (gn * (denomLcm edges : ℚ)).den = 1 := c.gInt _ (mget_mem hgn)
    have := natOf_lt_natOf ht0 (denomLcm_pos edges) htden hgnden hlt
    omega

theorem sigmaR_mono {edges : List Edge} {start : ℕ} {s1 s2 : AState}
    (hle : ∀ v, rankOf edges start s1 v ≤ rankOf edges start s2 v) :
    sigmaR edges start s1 ≤ sigmaR edges start s2 :=
  Finset.sum_le_sum fun v _ => hle v

theorem foldl_rank {h : ℕ → ℚ} {edges : List Edge} {start current : ℕ}
    (HW : NonnegWeights edges) :
    ∀ (l : List ℕ) (s0 : AState), CoreInv edges start s0 →
      (∀ n ∈ l, n ∈ neighborIds edges current) →
      (mget s0.gScore current).isSome →
      (∀ v, rankOf edges start (l.foldl (relax h edges current) s0) v ≤ rankOf edges start s0 v) ∧
        (l.foldl (relax h edges current) s0 = s0 ∨
          sigmaR edges start (l.foldl (relax h edges current) s0) < sigmaR edges start s0) := by
  intro l
  induction l with
  | nil => intro s0 c _ hcur; exact ⟨fun v => le_refl _, Or.inl rfl⟩
  | cons n l ih =>
    intro s0 c hl hcur
    simp only [List.foldl_cons]
    have hn := hl n (List.mem_cons_self n l)
    have c1 : CoreInv edges start (relax h edges current s0 n) := relax_core HW c hn hcur
    have hcur1 : (mget (relax h edges current s0 n).gScore current).isSome :=
      relax_g_mono h edges current s0 n hcur
    have hrest := ih (relax h edges current s0 n) c1
      (fun m hm => hl m (List.mem_cons_of_mem _ hm)) hcur1
    have hstep := relax_rank_le (h := h) HW c hn hcur
    refine ⟨fun v => le_trans (hrest.1 v) (hstep v), ?_⟩
    rcases relax_rank_cases (h := h) HW c hn hcur with hcase | hcase
    · rw [hcase] at hrest ⊢
      exact hrest.2
    · right
      have hnIds : n ∈ allIdsF edges start :=
        mem_allIdsF_of_adj start (mem_neighborIds_iff.mp hn)
      have hstrict : sigmaR edges start (relax h edges current s0 n) < sigmaR edges start s0 :=
        Finset.sum_lt_sum (fun v _ => hstep v) ⟨n, hnIds, hcase⟩
      exact lt_of_le_of_lt (sigmaR_mono hrest.1) hstrict

theorem openLen_le {edges : List Edge} {start : ℕ} {s : AState}
    (c : CoreInv edges start s) : s.openSet.length ≤ idCount edges start := by
  have h1 : s.openSet.toFinset.card = s.openSet.length := List.toFinset_card_of_nodup c.openNodup
  have h2 : s.openSet.toFinset ⊆ allIdsF edges start := by
    intro x hx
    exact c.openIds x (List.mem_toFinset.mp hx)
  calc s.openSet.length = s.openSet.toFinset.card := h1.symm
    _ ≤ idCount edges start := Finset.card_le_card h2

theorem expand_mu {h : ℕ → ℚ} {edges : List Edge} {start goal current : ℕ} {s : AState}
    (HW : NonnegWeights edges) (inv : AInv edges start goal s)
    (hcur : current ∈ s.openSet) :
    muM edges start (expand h edges current s) < muM edges start s := by
  have hcg : (mget s.gScore current).isSome := inv.core.openSub current hcur
  have c1 : CoreInv edges start { s with openSet := s.openSet.erase current } :=
    erase_core inv.core current
  have hneigh : ∀ n ∈ neighborIds edges current, n ∈ neighborIds edges current := fun n hn => hn
  have hfr := @foldl_rank h edges start current HW (neighborIds edges current)
    { s with openSet := s.openSet.erase current } c1 hneigh hcg
  have hcoreF := (@foldl_relax_core h edges start current HW (neighborIds edges current)
    { s with openSet := s.openSet.erase current } c1 hneigh hcg).1
  have hlenE : s.openSet.length = (s.openSet.erase current).length + 1 := by
    rw [List.length_erase_of_mem hcur]
    have := List.length_pos.mpr (List.ne_nil_of_mem hcur)
    omega
  have hsig1 : sigmaR edges start { s with openSet := s.openSet.erase current }
      = sigmaR edges start s := rfl
  rcases hfr.2 with hsame | hlt
  · unfold expand
    rw [hsame]
    unfold muM
    rw [hsig1]
    simp only
    omega
  · unfold expand
    unfold muM
    have hlenF : ((neighborIds edges current).foldl (relax h edges current)
        { s with openSet := s.openSet.erase current }).openSet.length ≤ idCount edges start :=
      openLen_le hcoreF
    rw [hsig1] at hlt
    have hstep : sigmaR edges start ((neighborIds edges current).foldl (relax h edges current)
        { s with openSet := s.openSet.erase current }) + 1 ≤ sigmaR edges start s := hlt
    calc sigmaR edges start ((neighborIds edges current).foldl (relax h edges current)
          { s with openSet := s.openSet.erase current }) * (idCount edges start + 1)
          + ((neighborIds edges current).foldl (relax h edges current)
              { s with openSet := s.openSet.erase current }).openSet.length
        ≤ sigmaR edges start ((neighborIds edges current).foldl (relax h edges current)
            { s with openSet := s.openSet.erase current }) * (idCount edges start + 1)
          + idCount edges start := by omega
      _ < (sigmaR edges start ((neighborIds edges current).foldl (relax h edges current)
            { s with openSet := s.openSet.erase current }) + 1) * (idCount edges start + 1) := by
          have hexp : (sigmaR edges start ((neighborIds edges current).foldl (relax h edges current)
              { s with openSet := s.openSet.erase current }) + 1) * (idCount edges start + 1)
              = sigmaR edges start ((neighborIds edges current).foldl (relax h edges current)
                { s with openSet := s.openSet.erase current }) * (idCount edges start + 1)
                + (idCount edges start + 1) := by ring
          omega
      _ ≤ sigmaR edges start s * (idCount edges start + 1) :=
          Nat.mul_le_mul_right _ hstep
      _ ≤ sigmaR edges start s * (idCount edges start + 1) + s.openSet.length :=
          Nat.le_add_right _ _

/-! ### The initial state and fuel sufficiency -/

theorem init_ainv (h : ℕ → ℚ) (edges : List Edge) (start goal : ℕ) :
    AInv edges start goal (initState h start) := by
  constructor
  case core =>
    constructor
    case openSub => intro v hv; simp [initState] at hv; simp [initState, hv, mget]
    case openNodup => simp [initState]
    case openIds => intro v hv; simp [initState] at hv; rw [hv]; exact start_mem_allIdsF edges start
    case gIds =>
      intro p hp
      simp [initState] at hp
      rw [hp]
      exact start_mem_allIdsF edges start
    case gNonneg => intro p hp; simp [initState] at hp; rw [hp]
    case gInt => intro p hp; simp [initState] at hp; rw [hp]; simp
    case gBound => intro p hp; simp [initState] at hp; rw [hp]; simp [natOf]
    case startG => simp [initState, mget]
    case cameG => intro p hp; simp [initState] at hp
    case cameAdj => intro p hp; simp [initState] at hp
    case cameLex => intro v u hv; simp [initState, mget] at hv
    case gOrCame => intro p hp; simp [initState] at hp; exact Or.inl (by rw [hp])
    case startCame => simp [initState, mget]
    case lenEq => simp [initState]
  case closedRel =>
    intro u hgu hnotopen v hv
    exfalso
    apply hnotopen
    simp only [initState, mget] at hgu
    by_cases hus : u = start
    · simp [initState, hus]
    · simp [hus] at hgu
  case goalOpen =>
    intro hgg
    simp only [initState, mget] at hgg
    by_cases hgs : goal = start
    · simp [initState, hgs]
    · simp [hgs] at hgg

theorem muM_init_le (h : ℕ → ℚ) (edges : List Edge) (start goal : ℕ) :
    muM edges start (initState h start) ≤ fuelBound edges start := by
  have c : CoreInv edges start (initState h start) := (init_ainv h edges start goal).core
  have hsig : sigmaR edges start (initState h start)
      ≤ idCount edges start * (gBnd edges start + 1) := by
    unfold sigmaR
    calc (allIdsF edges start).sum (rankOf edges start (initState h start))
        ≤ (allIdsF edges start).card • (gBnd edges start + 1) :=
          Finset.sum_le_card_nsmul _ _ _ (fun v _ => rankOf_le c v)
      _ = idCount edges start * (gBnd edges start + 1) := by
          rw [smul_eq_mul]; rfl
  unfold muM fuelBound
  have hlen : (initState h start).openSet.length = 1 := rfl
  rw [hlen]
  have hmul : sigmaR edges start (initState h start) * (idCount edges start + 1)
      ≤ idCount edges start * (gBnd edges start + 1) * (idCount edges start + 1) :=
    Nat.mul_le_mul_right _ hsig
  omega

theorem astarLoop_eq (h : ℕ → ℚ) (edges : List Edge) (goal fuel : ℕ) (s : AState) :
    astarLoop h edges goal fuel s =
      match s.openSet with
      | [] => some none
      | x :: xs =>
        if selectCurrent s.fScore (x :: xs) = goal then
          some (some (reconstructPath s.cameFrom s.cameFrom.length
            (selectCurrent s.fScore (x :: xs))))
        else
          match fuel with
          | 0 => none
          | fuel' + 1 =>
            astarLoop h edges goal fuel' (expand h edges (selectCurrent s.fScore (x :: xs)) s) := by
  rw [astarLoop]

theorem astarLoop_complete {h : ℕ → ℚ} {edges : List Edge} {start goal : ℕ}
    (HW : NonnegWeights edges) :
    ∀ (fuel : ℕ) (s : AState), AInv edges start goal s → muM edges start s ≤ fuel →
      ∃ r, astarLoop h edges goal fuel s = some r := by
  intro fuel
  induction fuel with
  | zero =>
    intro s inv hmu
    rw [astarLoop_eq]
    cases hopen : s.openSet with
    | nil => exact ⟨none, rfl⟩
    | cons x xs =>
      by_cases hg : selectCurrent s.fScore (x :: xs) = goal
      · exact ⟨some (reconstructPath s.cameFrom s.cameFrom.length
          (selectCurrent s.fScore (x :: xs))), by simp [hg]⟩
      · exfalso
        unfold muM at hmu
        rw [hopen] at hmu
        simp at hmu
  | succ fuel ih =>
    intro s inv hmu
    rw [astarLoop_eq]
    cases hopen : s.openSet with
    | nil => exact ⟨none, rfl⟩
    | cons x xs =>
      by_cases hg : selectCurrent s.fScore (x :: xs) = goal
      · exact ⟨some (reconstructPath s.cameFrom s.cameFrom.length
          (selectCurrent s.fScore (x :: xs))), by simp [hg]⟩
      · have hmem : selectCurrent s.fScore (x :: xs) ∈ s.openSet := by
          rw [hopen]; exact selectCurrent_mem s.fScore x xs
        have hinv2 := expand_ainv (h := h) HW inv hmem hg
        have hmu2 := expand_mu (h := h) HW inv hmem
        obtain ⟨r, hr⟩ := ih _ hinv2 (by omega)
        refine ⟨r, ?_⟩
        simp only [hg, if_false]
        exact hr

theorem astarWith_terminates {h : ℕ → ℚ} {edges : List Edge} {start goal : ℕ}
    (HW : NonnegWeights edges) : ∃ r, astarWith h edges start goal = some r := by
  unfold astarWith
  exact astarLoop_complete HW (fuelBound edges start) (initState h start)
    (init_ainv h edges start goal) (muM_init_le h edges start goal)

/-! ### Acyclicity of the parent pointers and path reconstruction -/

theorem lexLt_irrefl (gsc : List (ℕ × ℚ)) (v : ℕ) : ¬ lexLt gsc v v := by
  unfold lexLt
  simp

theorem lexLt_trans {gsc : List (ℕ × ℚ)} {u v w : ℕ}
    (h1 : lexLt gsc u v) (h2 : lexLt gsc v w) : lexLt gsc u w := by
  unfold lexLt at h1 h2 ⊢
  rcases h1 with h1 | ⟨h1, h1i⟩ <;> rcases h2 with h2 | ⟨h2, h2i⟩
  · exact Or.inl (lt_trans h1 h2)
  · exact Or.inl (h2 ▸ h1)
  · exact Or.inl (h1 ▸ h2)
  · exact Or.inr ⟨h1.trans h2, lt_trans h2i h1i⟩

theorem rankL_lt {gsc : List (ℕ × ℚ)} {u v : ℕ} (hu : u ∈ keysF gsc)
    (huv : lexLt gsc u v) : rankL gsc u < rankL gsc v := by
  unfold rankL
  apply Finset.card_lt_card
  constructor
  · intro k hk
    rw [Finset.mem_filter] at hk ⊢
    exact ⟨hk.1, lexLt_trans hk.2 huv⟩
  · intro hsub
    have hmem : u ∈ (keysF gsc).filter fun k => lexLt gsc k v := by
      rw [Finset.mem_filter]; exact ⟨hu, huv⟩
    have := hsub hmem
    rw [Finset.mem_filter] at this
    exact lexLt_irrefl gsc u this.2

theorem chainCame_append_one {came : List (ℕ × ℕ)} {l : List ℕ} {prev v : ℕ}
    (hc : chainCame came l) (hl : l.getLast? = some prev) (hv : mget came v = some prev) :
    chainCame came (l ++ [v]) := by
  induction l with
  | nil => simp at hl
  | cons a l ih =>
    cases l with
    | nil =>
      simp at hl
      subst hl
      exact ⟨hv, trivial⟩
    | cons b l =>
      obtain ⟨h1, h2⟩ := hc
      have hl2 : (b :: l).getLast? = some prev := by
        rw [List.getLast?_cons_cons] at hl
        exact hl
      exact ⟨h1, ih h2 hl2⟩

theorem reconstructPath_spec {came : List (ℕ × ℕ)} {gsc : List (ℕ × ℚ)}
    (hlex : ∀ v u, mget came v = some u → lexLt gsc u v)
    (hkeys : ∀ v u, mget came v = some u → (mget gsc v).isSome ∧ (mget gsc u).isSome) :
    ∀ (fuel : ℕ) (v : ℕ), (mget gsc v).isSome → rankL gsc v ≤ fuel →
      ∃ hd, (reconstructPath came fuel v).head? = some hd ∧ mget came hd = none ∧
        (mget gsc hd).isSome ∧
        (reconstructPath came fuel v).getLast? = some v ∧
        chainCame came (reconstructPath came fuel v) ∧
        ∀ x ∈ reconstructPath came fuel v, (mget gsc x).isSome := by
  intro fuel
  induction fuel with
  | zero =>
    intro v hv hrank
    have hnone : mget came v = none := by
      cases hcv : mget came v with
      | none => rfl
      | some u =>
        exfalso
        have hul : lexLt gsc u v := hlex v u hcv
        have huk : u ∈ keysF gsc := mget_isSome_iff_keysF.mp (hkeys v u hcv).2
        have : 0 < rankL gsc v := by
          unfold rankL
          rw [Finset.card_pos]
          exact ⟨u, by rw [Finset.mem_filter]; exact ⟨huk, hul⟩⟩
        omega
    refine ⟨v, ?_, hnone, hv, ?_, trivial, ?_⟩
    · simp [reconstructPath]
    · simp [reconstructPath]
    · intro x hx; simp [reconstructPath] at hx; rw [hx]; exact hv
  | succ fuel ih =>
    intro v hv hrank
    cases hcv : mget came v with
    | none =>
      refine ⟨v, ?_, hcv, hv, ?_, ?_, ?_⟩
      · simp [reconstructPath, hcv]
      · simp [reconstructPath, hcv]
      · simp [reconstructPath, hcv, chainCame]
      · intro x hx; simp [reconstructPath, hcv] at hx; rw [hx]; exact hv
    | some prev =>
      have hplex : lexLt gsc prev v := hlex v prev hcv
      have hpk : (mget gsc prev).isSome := (hkeys v prev hcv).2
      have hrankp : rankL gsc prev ≤ fuel := by
        have := rankL_lt (mget_isSome_iff_keysF.mp hpk) hplex
        omega
      obtain ⟨hd, hhd, hhdnone, hhdk, hlast, hchain, hmem⟩ := ih prev hpk hrankp
      have heq : reconstructPath came (fuel + 1) v
          = reconstructPath came fuel prev ++ [v] := by
        simp [reconstructPath, hcv]
      have hne : reconstructPath came fuel prev ≠ [] := by
        intro hn
        rw [hn] at hhd
        simp at hhd
      refine ⟨hd, ?_, hhdnone, hhdk, ?_, ?_, ?_⟩
      · rw [heq]
        rwa [List.head?_append_of_ne_nil _ hne]
      · rw [heq, List.getLast?_concat]
      · rw [heq]
        exact chainCame_append_one hchain hlast hcv
      · intro x hx
        rw [heq] at hx
        rcases List.mem_append.mp hx with h1 | h1
        · exact hmem x h1
        · simp at h1; rw [h1]; exact hv

/-! ### What a returned path looks like, and what an empty frontier means -/

theorem chainCame_imp_chainAdj {edges : List Edge} {start : ℕ} {s : AState}
    (c : CoreInv edges start s) :
    ∀ l, chainCame s.cameFrom l → chainAdj edges l := by
  intro l
  induction l with
  | nil => intro _; trivial
  | cons a l ih =>
    cases l with
    | nil => intro _; trivial
    | cons b rest =>
      intro hc
      obtain ⟨h1, h2⟩ := hc
      exact ⟨c.cameAdj _ (mget_mem h1), ih h2⟩

theorem return_path_spec {edges : List Edge} {start goal : ℕ} {s : AState}
    (inv : AInv edges start goal s) (hgk : (mget s.gScore goal).isSome) :
    isPath edges (reconstructPath s.cameFrom s.cameFrom.length goal) start goal ∧
      ∀ x ∈ reconstructPath s.cameFrom s.cameFrom.length goal, x ∈ allIdsF edges start := by
  have hkeys : ∀ v u, mget s.cameFrom v = some u →
      (mget s.gScore v).isSome ∧ (mget s.gScore u).isSome :=
    fun v u hv => inv.core.cameG (v, u) (mget_mem hv)
  have hrank : rankL s.gScore goal ≤ s.cameFrom.length := by
    have h1 : ((keysF s.gScore).filter fun k => lexLt s.gScore k goal)
        ⊆ (keysF s.gScore).erase goal := by
      intro k hk
      rw [Finset.mem_filter] at hk
      rw [Finset.mem_erase]
      refine ⟨?_, hk.1⟩
      intro hkg
      rw [hkg] at hk
      exact lexLt_irrefl s.gScore goal hk.2
    have h2 : rankL s.gScore goal ≤ ((keysF s.gScore).erase goal).card :=
      Finset.card_le_card h1
    have h3 : ((keysF s.gScore).erase goal).card = (keysF s.gScore).card - 1 :=
      Finset.card_erase_of_mem (mget_isSome_iff_keysF.mp hgk)
    have h4 : (keysF s.gScore).card ≤ s.gScore.length := by
      unfold keysF
      calc (s.gScore.map Prod.fst).toFinset.card ≤ (s.gScore.map Prod.fst).length :=
            List.toFinset_card_le _
        _ = s.gScore.length := List.length_map _ _
    have h5 := inv.core.lenEq
    have h6 : 0 < (keysF s.gScore).card := by
      rw [Finset.card_pos]
      exact ⟨goal, mget_isSome_iff_keysF.mp hgk⟩
    omega
  obtain ⟨hd, hhd, hhdnone, hhdk, hlast, hchain, hmem⟩ :=
    reconstructPath_spec inv.core.cameLex hkeys s.cameFrom.length goal hgk hrank
  have hhdstart : hd = start := by
    obtain ⟨q, hq⟩ := Option.isSome_iff_exists.mp hhdk
    rcases inv.core.gOrCame (hd, q) (mget_mem hq) with h1 | h1
    · exact h1
    · rw [hhdnone] at h1
      simp at h1
  constructor
  · exact ⟨hhdstart ▸ hhd, hlast, chainCame_imp_chainAdj inv.core _ hchain⟩
  · intro x hx
    obtain ⟨q, hq⟩ := Option.isSome_iff_exists.mp (hmem x hx)
    exact inv.core.gIds (x, q) (mget_mem hq)

theorem chain_all_keyed {edges : List Edge} {start goal : ℕ} {s : AState}
    (inv : AInv edges start goal s) (hempty : s.openSet = []) :
    ∀ (p : List ℕ) (a : ℕ), chainAdj edges p → p.head? = some a →
      (mget s.gScore a).isSome → ∀ x ∈ p, (mget s.gScore x).isSome := by
  intro p
  induction p with
  | nil => intro a _ ha; simp at ha
  | cons b p ih =>
    intro a hchain hhead hak x hx
    have hab : b = a := by simp at hhead; exact hhead
    subst hab
    cases p with
    | nil =>
      simp at hx
      rw [hx]
      exact hak
    | cons c rest =>
      obtain ⟨hadj, hrest⟩ := hchain
      have hck : (mget s.gScore c).isSome := by
        have hnb : c ∈ neighborIds edges b := mem_neighborIds_iff.mpr hadj
        have hnotopen : b ∉ s.openSet := by rw [hempty]; simp
        exact inv.closedRel b hak hnotopen c hnb
      rcases List.mem_cons.mp hx with h1 | h1
      · rw [h1]; exact hak
      · exact ih c hrest rfl hck x h1

theorem empty_open_unreachable {edges : List Edge} {start goal : ℕ} {s : AState}
    (inv : AInv edges start goal s) (hempty : s.openSet = [])
    (hstart : (mget s.gScore start).isSome) : ¬ Reachable edges start goal := by
  rintro ⟨p, hhead, hlast, hchain⟩
  have hgoalmem : goal ∈ p :=
    List.mem_of_mem_getLast? (by rw [hlast]; simp)
  have hall := chain_all_keyed inv hempty p start hchain hhead hstart
  have hgk : (mget s.gScore goal).isSome := hall goal hgoalmem
  have := inv.goalOpen hgk
  rw [hempty] at this
  simp at this

/-! ### Soundness and completeness of the search loop -/

theorem astarLoop_spec {h : ℕ → ℚ} {edges : List Edge} {start goal : ℕ}
    (HW : NonnegWeights edges) :
    ∀ (fuel : ℕ) (s : AState), AInv edges start goal s →
      (∀ p, astarLoop h edges goal fuel s = some (some p) →
        isPath edges p start goal ∧ ∀ x ∈ p, x ∈ allIdsF edges start) ∧
      (astarLoop h edges goal fuel s = some none → ¬ Reachable edges start goal) := by
  intro fuel
  induction fuel with
  | zero =>
    intro s inv
    rw [astarLoop_eq]
    cases hopen : s.openSet with
    | nil =>
      constructor
      · intro p hp; simp at hp
      · intro _
        exact empty_open_unreachable inv hopen (by rw [inv.core.startG]; rfl)
    | cons x xs =>
      by_cases hg : selectCurrent s.fScore (x :: xs) = goal
      · constructor
        · intro p hp
          simp only [hg, if_true] at hp
          have hgk : (mget s.gScore goal).isSome := by
            rw [← hg]
            exact inv.core.openSub _ (by rw [hopen]; exact selectCurrent_mem s.fScore x xs)
          have hspec := return_path_spec inv hgk
          have hpe : reconstructPath s.cameFrom s.cameFrom.length goal = p := by
            injection hp with hp1
            injection hp1 with hp2
          rw [← hpe]
          exact hspec
        · intro hp
          simp only [hg, if_true] at hp
          simp at hp
      · constructor
        · intro p hp
          simp only [hg, if_false] at hp
          simp at hp
        · intro hp
          simp only [hg, if_false] at hp
          simp at hp
  | succ fuel ih =>
    intro s inv
    rw [astarLoop_eq]
    cases hopen : s.openSet with
    | nil =>
      constructor
      · intro p hp; simp at hp
      · intro _
        exact empty_open_unreachable inv hopen (by rw [inv.core.startG]; rfl)
    | cons x xs =>
      by_cases hg : selectCurrent s.fScore (x :: xs) = goal
      · constructor
        · intro p hp
          simp only [hg, if_true] at hp
          have hgk : (mget s.gScore goal).isSome := by
            rw [← hg]
            exact inv.core.openSub _ (by rw [hopen]; exact selectCurrent_mem s.fScore x xs)
          have hspec := return_path_spec inv hgk
          have hpe : reconstructPath s.cameFrom s.cameFrom.length goal = p := by
            injection hp with hp1
            injection hp1 with hp2
          rw [← hpe]
          exact hspec
        · intro hp
          simp only [hg, if_true] at hp
          simp at hp
      · have hmem : selectCurrent s.fScore (x :: xs) ∈ s.openSet := by
          rw [hopen]; exact selectCurrent_mem s.fScore x xs
        have hinv2 := expand_ainv (h := h) HW inv hmem hg
        have := ih _ hinv2
        constructor
        · intro p hp
          simp only [hg, if_false] at hp
          exact this.1 p hp
        · intro hp
          simp only [hg, if_false] at hp
          exact this.2 hp

/-- The full behavioral characterization of `astar` on graphs with
non-negative edge weights: it terminates, a returned path is a genuine walk
from start to goal inside the id universe, and `null` is returned exactly
when the goal is unreachable. -/
theorem astar_spec {g : Graph} {start goal : ℕ} (HW : NonnegWeights g.edges) :
    (∀ p, astar g start goal = some (some p) →
      isPath g.edges p start goal ∧ ∀ x ∈ p, x ∈ allIdsF g.edges start) ∧
    (astar g start goal = some none ↔ ¬ Reachable g.edges start goal) ∧
    (Reachable g.edges start goal ↔
      ∃ p, astar g start goal = some (some p) ∧ isPath g.edges p start goal) := by
  have hterm : ∃ r, astar g start goal = some r :=
    @astarWith_terminates (heurTo g goal) g.edges start goal HW
  have hspec := @astarLoop_spec (heurTo g goal) g.edges start goal HW
    (fuelBound g.edges start)
    (initState (heurTo g goal) start) (init_ainv (heurTo g goal) g.edges start goal)
  have hsound : ∀ p, astar g start goal = some (some p) →
      isPath g.edges p start goal ∧ ∀ x ∈ p, x ∈ allIdsF g.edges start := hspec.1
  have hcompl : astar g start goal = some none → ¬ Reachable g.edges start goal := hspec.2
  refine ⟨hsound, ⟨hcompl, ?_⟩, ?_, ?_⟩
  · intro hnr
    obtain ⟨r, hr⟩ := hterm
    cases r with
    | none => exact hr
    | some p =>
      exfalso
      apply hnr
      exact ⟨p, (hsound p hr).1⟩
  · intro hreach
    obtain ⟨r, hr⟩ := hterm
    cases r with
    | none => exact absurd hreach (hcompl hr)
    | some p => exact ⟨p, hr, (hsound p hr).1⟩
  · rintro ⟨p, hp, hpath⟩
    exact ⟨p, hpath⟩

/-! ### The degenerate search and the selection rule -/

theorem astar_self (g : Graph) (start : ℕ) : astar g start start = some (some [start]) := by
  unfold astar astarWith
  rw [astarLoop_eq]
  simp [initState, selectCurrent, reconstructPath]

theorem selectCurrent_min (f : List (ℕ × ℚ)) :
    ∀ (xs : List ℕ) (x : ℕ), ∀ y ∈ x :: xs, mgetD f (selectCurrent f (x :: xs)) ≤ mgetD f y := by
  have aux : ∀ (l : List ℕ) (a : ℕ),
      mgetD f (l.foldl (fun a b => if mgetD f a < mgetD f b then a else b) a) ≤ mgetD f a ∧
      ∀ y ∈ l, mgetD f (l.foldl (fun a b => if mgetD f a < mgetD f b then a else b) a)
        ≤ mgetD f y := by
    intro l
    induction l with
    | nil => intro a; exact ⟨le_refl _, by simp⟩
    | cons y ys ih =>
      intro a
      simp only [List.foldl_cons]
      by_cases hy : mgetD f a < mgetD f y
      · rw [if_pos hy]
        refine ⟨(ih a).1, ?_⟩
        intro z hz
        rcases List.mem_cons.mp hz with h1 | h1
        · rw [h1]; exact le_trans (ih a).1 (le_of_lt hy)
        · exact (ih a).2 z h1
      · rw [if_neg hy]
        push_neg at hy
        refine ⟨le_trans (ih y).1 hy, ?_⟩
        intro z hz
        rcases List.mem_cons.mp hz with h1 | h1
        · rw [h1]; exact (ih y).1
        · exact (ih y).2 z h1
  intro xs x y hy
  rcases List.mem_cons.mp hy with h1 | h1
  · rw [h1]; exact (aux xs x).1
  · exact (aux xs x).2 y h1

theorem selectCurrent_append (f : List (ℕ × ℚ)) (x : ℕ) (xs : List ℕ) (y : ℕ) :
    selectCurrent f ((x :: xs) ++ [y]) =
      if mgetD f (selectCurrent f (x :: xs)) < mgetD f y then selectCurrent f (x :: xs)
      else y := by
  unfold selectCurrent
  simp [List.foldl_append]

/-! ### The path-distance display and the time estimate -/

theorem calculatePathDistance_eq_zipSum (g : Graph) :
    ∀ p : List ℕ, calculatePathDistance g p
      = ((p.zip p.tail).map fun q => heuristic (nodeAt g q.1) (nodeAt g q.2)).sum := by
  intro p
  induction p with
  | nil => simp [calculatePathDistance]
  | cons a p ih =>
    cases p with
    | nil => simp [calculatePathDistance]
    | cons b rest =>
      simp only [calculatePathDistance, List.zip_cons_cons, List.tail_cons, List.map_cons,
        List.sum_cons]
      rw [ih]
      simp

theorem round1_near (x : ℚ) : |50 * round1 (x / 50) - x| ≤ 5 / 2 := by
  unfold round1
  have h1 := abs_sub_round (α := ℚ) (x / 50 * 10)
  have h2 : 50 * (((round (x / 50 * 10) : ℤ) : ℚ) / 10) - x
      = 5 * (((round (x / 50 * 10) : ℤ) : ℚ) - x / 50 * 10) := by ring
  rw [h2, abs_mul, show |(5 : ℚ)| = 5 by norm_num, abs_sub_comm]
  linarith

theorem estimatedTime_bound (g : Graph) (p : List ℕ) :
    |50 * estimatedTimeVal g p - pathDistanceVal g p| ≤ 5 / 2 :=
  round1_near (pathDistanceVal g p)

/-! ### The spec-modelled cost model -/

theorem penalizeIter_penalty (e : SEdge) (a : ℚ) :
    ∀ n, (penalizeIter e a n).failure_penalty = e.failure_penalty + n * a ∧
      (penalizeIter e a n).base_cost = e.base_cost ∧
      (penalizeIter e a n).reliability = e.reliability := by
  intro n
  induction n with
  | zero => simp [penalizeIter]
  | succ n ih =>
    simp only [penalizeIter, penalize]
    refine ⟨?_, ih.2.1, ih.2.2⟩
    rw [ih.1]
    push_cast
    ring

theorem effective_cost_penalize_lt {e : SEdge} {a : ℚ} (ha : 0 < a) :
    effective_cost e < effective_cost (penalize e a) := by
  unfold effective_cost penalize
  simp only
  linarith

/-! ### The multi-goal loop -/

theorem mem_allIdsF_iff {edges : List Edge} {start x : ℕ} :
    x ∈ allIdsF edges start ↔ x = start ∨ ∃ e ∈ edges, x = e.efrom ∨ x = e.eto := by
  unfold allIdsF allIdsList
  rw [List.mem_toFinset]
  induction edges with
  | nil => simp
  | cons e es ih =>
    simp only [List.foldr_cons, List.mem_cons] at ih ⊢
    constructor
    · rintro (h | h | h | h)
      · exact Or.inl h
      · exact Or.inr ⟨e, Or.inl rfl, Or.inl h⟩
      · exact Or.inr ⟨e, Or.inl rfl, Or.inr h⟩
      · rcases ih.mp (Or.inr h) with h2 | ⟨e2, he2, hx⟩
        · exact Or.inl h2
        · exact Or.inr ⟨e2, Or.inr he2, hx⟩
    · rintro (h | ⟨e2, he2, hx⟩)
      · exact Or.inl h
      · rcases he2 with he2 | he2
        · subst he2
          rcases hx with hx | hx
          · exact Or.inr (Or.inl hx)
          · exact Or.inr (Or.inr (Or.inl hx))
        · rcases ih.mpr (Or.inr ⟨e2, he2, hx⟩) with h2 | h2
          · exact Or.inl h2
          · exact Or.inr (Or.inr (Or.inr h2))

theorem selectBestGoal_fold (g : Graph) (current : ℕ) :
    ∀ (l : List ℕ) (acc : Option (ℕ × List ℕ × ℚ)) (bg : ℕ) (bp : List ℕ) (bd : ℚ),
      l.foldl
        (fun best goal =>
          match astar g current goal with
          | some (some path) =>
            let dist := calculatePathDistance g path
            match best with
            | none => some (goal, path, dist)
            | some (bg, bp, bd) =>
              if dist < bd then some (goal, path, dist) else some (bg, bp, bd)
          | _ => best) acc = some (bg, bp, bd) →
      acc = some (bg, bp, bd) ∨
        (bg ∈ l ∧ astar g current bg = some (some bp) ∧ bd = calculatePathDistance g bp) := by
  intro l
  induction l with
  | nil => intro acc bg bp bd hacc; exact Or.inl hacc
  | cons x l ih =>
    intro acc bg bp bd hacc
    simp only [List.foldl_cons] at hacc
    rcases ih _ bg bp bd hacc with hstep | hstep
    · cases hx : astar g current x with
      | none =>
        rw [hx] at hstep
        exact Or.inl hstep
      | some o =>
        cases o with
        | none =>
          rw [hx] at hstep
          exact Or.inl hstep
        | some path =>
          rw [hx] at hstep
          cases acc with
          | none =>
            simp only [Option.some.injEq, Prod.mk.injEq] at hstep
            obtain ⟨hbg, hbp, hbd⟩ := hstep
            right
            subst hbg
            refine ⟨List.mem_cons_self _ _, ?_, ?_⟩
            · rw [← hbp]; exact hx
            · rw [← hbd, ← hbp]
          | some t =>
            obtain ⟨a0, p0, d0⟩ := t
            simp only at hstep
            by_cases hlt : calculatePathDistance g path < d0
            · rw [if_pos hlt] at hstep
              simp only [Option.some.injEq, Prod.mk.injEq] at hstep
              obtain ⟨hbg, hbp, hbd⟩ := hstep
              right
              subst hbg
              refine ⟨List.mem_cons_self _ _, ?_, ?_⟩
              · rw [← hbp]; exact hx
              · rw [← hbd, ← hbp]
            · rw [if_neg hlt] at hstep
              exact Or.inl hstep
    · exact Or.inr ⟨List.mem_cons_of_mem _ hstep.1, hstep.2⟩

theorem selectBestGoal_spec {g : Graph} {current : ℕ} {goalsLeft : List ℕ}
    {bg : ℕ} {bp : List ℕ} {bd : ℚ}
    (h : selectBestGoal g current goalsLeft = some (bg, bp, bd)) :
    bg ∈ goalsLeft ∧ astar g current bg = some (some bp) ∧ bd = calculatePathDistance g bp := by
  unfold selectBestGoal at h
  rcases selectBestGoal_fold g current goalsLeft none bg bp bd h with h1 | h1
  · exact Option.noConfusion h1
  · exact h1

theorem selectBestGoal_pair {g : Graph} {A B C : ℕ} {pB pC : List ℕ}
    (hB : astar g A B = some (some pB)) (hC : astar g A C = some (some pC))
    (hle : calculatePathDistance g pB ≤ calculatePathDistance g pC) :
    selectBestGoal g A [B, C] = some (B, pB, calculatePathDistance g pB) := by
  unfold selectBestGoal
  simp only [List.foldl_cons, List.foldl_nil, hB, hC]
  rw [if_neg (not_lt.mpr hle)]

theorem selectBestGoal_single {g : Graph} {current gl : ℕ} :
    selectBestGoal g current [gl] = match astar g current gl with
      | some (some q) => some (gl, q, calculatePathDistance g q)
      | _ => none := by
  unfold selectBestGoal
  cases hq : astar g current gl with
  | none => simp [hq]
  | some o => cases o with
    | none => simp [hq]
    | some q => simp [hq]

theorem multiLoop_pair {g : Graph} {A B C : ℕ} {pB pC : List ℕ}
    (hB : astar g A B = some (some pB)) (hC : astar g A C = some (some pC))
    (hlt : calculatePathDistance g pB < calculatePathDistance g pC) :
    calculatePathMulti g A [B, C] = ([A] ++ pB.tail) ++ tailOrNil (astar g B C) := by
  have hBC : B ≠ C := by
    intro he
    rw [he, hC] at hB
    have hpp : pB = pC := by
      injection hB with h1
      injection h1 with h2
      exact h2.symm
    rw [hpp] at hlt
    exact lt_irrefl _ hlt
  unfold calculatePathMulti
  simp only [List.length_cons, List.length_nil]
  rw [multiLoop]
  rw [if_neg (by simp : ¬([B, C] : List ℕ) = [])]
  rw [selectBestGoal_pair hB hC (le_of_lt hlt)]
  simp only
  have herase : ([B, C] : List ℕ).erase B = [C] := by
    simp [List.erase_cons_head]
  rw [herase]
  rw [multiLoop]
  rw [if_neg (by simp : ¬([C] : List ℕ) = [])]
  rw [selectBestGoal_single]
  cases hbc : astar g B C with
  | none => simp [tailOrNil]
  | some o => cases o with
    | none => simp [tailOrNil]
    | some q =>
      simp only
      rw [multiLoop]
      simp [tailOrNil]

theorem multiLoop_avoid {g : Graph} {gl : ℕ} (HW : NonnegWeights g.edges)
    (hnoedge : ∀ e ∈ g.edges, e.efrom ≠ gl ∧ e.eto ≠ gl) :
    ∀ (fuel : ℕ) (current : ℕ) (remaining : List ℕ) (fullPath : List ℕ),
      current ≠ gl → (∀ x ∈ fullPath, x ≠ gl) →
      ∀ x ∈ multiLoop g fuel current remaining fullPath, x ≠ gl := by
  intro fuel
  induction fuel with
  | zero => intro current remaining fullPath _ hfull x hx; exact hfull x hx
  | succ fuel ih =>
    intro current remaining fullPath hcur hfull x hx
    rw [multiLoop] at hx
    by_cases hrem : remaining = []
    · rw [if_pos hrem] at hx
      exact hfull x hx
    · rw [if_neg hrem] at hx
      cases hsel : selectBestGoal g current remaining with
      | none =>
        rw [hsel] at hx
        exact hfull x hx
      | some t =>
        obtain ⟨bg, bp, bd⟩ := t
        rw [hsel] at hx
        simp only at hx
        obtain ⟨hmem, hastar, -⟩ := selectBestGoal_spec hsel
        have hsound := (@astar_spec g current bg HW).1 bp hastar
        have hbpids : ∀ y ∈ bp, y ≠ gl := by
          intro y hy
          have := hsound.2 y hy
          rw [mem_allIdsF_iff] at this
          rcases this with h1 | ⟨e, he, h2⟩
          · rw [h1]; exact hcur
          · rcases h2 with h2 | h2 <;> rw [h2]
            · exact (hnoedge e he).1
            · exact (hnoedge e he).2
        have hbg : bg ≠ gl := by
          have hbgmem : bg ∈ bp :=
            List.mem_of_mem_getLast? (by rw [hsound.1.2.1]; simp)
          exact hbpids bg hbgmem
        have hfull2 : ∀ y ∈ fullPath ++ bp.tail, y ≠ gl := by
          intro y hy
          rcases List.mem_append.mp hy with h1 | h1
          · exact hfull y h1
          · exact hbpids y (List.mem_of_mem_tail h1)
        exact ih bg (remaining.erase bg) (fullPath ++ bp.tail) hbg hfull2 x hx

/-! ### The claims -/

/-- Claim C1, counterexample: on the non-negatively weighted graph `gC1` the
planner returns the path `[0, 2]` with total planning-weight cost 3, while
the alternative path `[0, 1, 2]` costs only 2 — so the returned path is not
cost-minimal among all paths (the straight-line heuristic overestimates the
cheap detour through the geometrically distant node 1). -/
theorem claim_C1_counterexample :
    astar gC1 0 2 = some (some [0, 2]) ∧
    isPath gC1.edges [0, 1, 2] 0 2 ∧
    specBaseCostSum gC1 [0, 1, 2] = 2 ∧
    specBaseCostSum gC1 [0, 2] = 3 ∧
    NonnegWeights gC1.edges ∧
    ¬ specBaseCostSum gC1 [0, 2] ≤ specBaseCostSum gC1 [0, 1, 2] := by
  with_unfolding_all decide

/-- Claim C1, amended: for every graph with non-negative edge weights,
`plan(start, goal)` returns `Unreachable` exactly when no path from start to
goal exists in the graph's (undirected) connectivity, and otherwise returns
a genuine path from start to goal — but that path is not guaranteed to be
cost-minimal, because the straight-line heuristic may overestimate. -/
theorem claim_C1_amended (g : Graph) (start goal : ℕ) (HW : NonnegWeights g.edges) :
    (astar g start goal = some none ↔ ¬ Reachable g.edges start goal) ∧
    (Reachable g.edges start goal ↔
      ∃ p, astar g start goal = some (some p) ∧ isPath g.edges p start goal) :=
  ⟨(astar_spec HW).2.1, (astar_spec HW).2.2⟩

/-- Claim C1, witness: the amended claim instantiated on the concrete line
graph `gW`. -/
theorem claim_C1_witness :
    (astar gW 0 2 = some none ↔ ¬ Reachable gW.edges 0 2) ∧
    (Reachable gW.edges 0 2 ↔
      ∃ p, astar gW 0 2 = some (some p) ∧ isPath gW.edges p 0 2) :=
  claim_C1_amended gW 0 2 (by with_unfolding_all decide)

/-- Claim C2, counterexample: the graph `gC2` has the single directed edge
`0 → 1` and no reverse edge, yet `plan(1, 0)` returns the path `[1, 0]`
traversing it from `to` back to `from` — expansion is not restricted to
outgoing edges. -/
theorem claim_C2_counterexample :
    astar gC2 1 0 = some (some [1, 0]) ∧
    (∀ e ∈ gC2.edges, ¬ (e.efrom = 1 ∧ e.eto = 0)) := by
  with_unfolding_all decide

/-- Claim C2, amended: node expansion treats every edge as undirected — the
neighbor list of a node consists of exactly the nodes joined to it by an
edge in either orientation. -/
theorem claim_C2_amended (edges : List Edge) (u v : ℕ) :
    v ∈ neighborIds edges u ↔ Adj edges u v :=
  mem_neighborIds_iff

/-- Claim C3, counterexample: with goal 5 unreachable from start 0 in the
edgeless graph `gC3`, the multi-goal planner returns the bare path `[0]`,
identical to its output for an empty goal set — the unreachable goal is
silently dropped, no set of unreachable goals is part of the result. -/
theorem claim_C3_counterexample :
    calculatePathMulti gC3 0 [5] = [0] ∧
    calculatePathMulti gC3 0 [] = [0] ∧
    (5 : ℕ) ∉ calculatePathMulti gC3 0 [5] ∧
    ¬ Reachable gC3.edges 0 5 := by
  refine ⟨by with_unfolding_all decide, by with_unfolding_all decide,
    by with_unfolding_all decide, ?_⟩
  have h5 : astar gC3 0 5 = some none := by with_unfolding_all decide
  exact ((astar_spec (by with_unfolding_all decide)).2.1).mp h5

/-- Claim C3, amended: the multi-goal planner returns only the accumulated
path; a goal that is never reached (here: one with no incident edges at all)
is silently omitted from the returned path, with no unreachable-goal set in
the result. -/
theorem claim_C3_amended (g : Graph) (s gl : ℕ) (goals : List ℕ)
    (HW : NonnegWeights g.edges)
    (hno : ∀ e ∈ g.edges, e.efrom ≠ gl ∧ e.eto ≠ gl) (hs : s ≠ gl) :
    gl ∉ calculatePathMulti g s goals := by
  intro hmem
  exact multiLoop_avoid HW hno goals.length s goals [s] hs
    (by intro x hx; simp at hx; rw [hx]; exact hs) gl hmem rfl

/-- Claim C3, witness: the amended claim instantiated on `gC3` with the
isolated goal 5. -/
theorem claim_C3_witness : (5 : ℕ) ∉ calculatePathMulti gC3 0 [5] :=
  claim_C3_amended gC3 0 5 [5] (by with_unfolding_all decide)
    (by with_unfolding_all decide) (by decide)

/-- Claim C4, counterexample: in the run of `astar` on `gC4` from 0 to 9,
nodes 2 and 4 sit in the open set in insertion order `[2, 4]` with equal
f-score 8 and equal g-score 5; the claimed tie-breaking (lower g-score, then
lower id) would expand 2 first and give the path `[0, 2, 9]`, but the code
expands 4 (the latest-inserted minimizer, as the `selectCurrent` conjunct
shows on that very frontier) and returns `[0, 4, 9]`. -/
theorem claim_C4_counterexample :
    astar gC4 0 9 = some (some [0, 4, 9]) ∧
    astar gC4 0 9 ≠ some (some [0, 2, 9]) ∧
    selectCurrent [(2, (8 : ℚ)), (4, 8)] [2, 4] = 4 ∧
    mgetD [(2, (8 : ℚ)), (4, 8)] 2 = mgetD [(2, (8 : ℚ)), (4, 8)] 4 := by
  with_unfolding_all decide

/-- Claim C4, amended: the frontier selection picks a node of minimal
f-score, but ties are broken toward the node latest in the open set's
insertion order (the JS `reduce` keeps the later element on equal
f-scores); g-scores and node ids are not consulted.  The selection is still
deterministic: appending a node to the open set changes the selection
exactly when the old minimum is not strictly smaller than the new node's
f-score. -/
theorem claim_C4_amended (f : List (ℕ × ℚ)) (x : ℕ) (xs : List ℕ) :
    (selectCurrent f (x :: xs) ∈ x :: xs ∧
      ∀ y ∈ x :: xs, mgetD f (selectCurrent f (x :: xs)) ≤ mgetD f y) ∧
    ∀ y, selectCurrent f ((x :: xs) ++ [y]) =
      if mgetD f (selectCurrent f (x :: xs)) < mgetD f y then selectCurrent f (x :: xs)
      else y :=
  ⟨⟨selectCurrent_mem f x xs, selectCurrent_min f xs x⟩,
    fun y => selectCurrent_append f x xs y⟩

/-- Claim C5, confirmed: when the goal is unreachable the frontier empties
and `plan(start, goal)` evaluates to the ordinary value `null` (modelled
`some none`) rather than raising; the caller `setCurrentPath(path || [])`
branches on it and keeps the empty path. -/
theorem claim_C5 (g : Graph) (start goal : ℕ) (HW : NonnegWeights g.edges)
    (hunreach : ¬ Reachable g.edges start goal) :
    astar g start goal = some none ∧ calculatePathSingle g start goal = [] := by
  have h1 : astar g start goal = some none := ((astar_spec HW).2.1).mpr hunreach
  refine ⟨h1, ?_⟩
  unfold calculatePathSingle
  rw [h1]

/-- Claim C5, witness: instantiated on the edgeless graph `gC3` with the
unreachable goal 5. -/
theorem claim_C5_witness :
    astar gC3 0 5 = some none ∧ calculatePathSingle gC3 0 5 = [] := by
  have hnr : ¬ Reachable gC3.edges 0 5 :=
    ((astar_spec (by with_unfolding_all decide)).2.1).mp (by with_unfolding_all decide)
  exact claim_C5 gC3 0 5 (by with_unfolding_all decide) hnr

/-- Claim C6, counterexample: on `gC6` the goals 2 and 1 are at exactly the
same path distance 1 from the start 0, and the goal list is `[2, 1]`; the
claimed tie-break by lowest goal id would visit 1 first, but the code keeps
the first goal in iteration order and visits 2 first, returning
`[0, 2, 0, 1]`. -/
theorem claim_C6_counterexample :
    calculatePathMulti gC6 0 [2, 1] = [0, 2, 0, 1] ∧
    calculatePathDistance gC6 [0, 2] = calculatePathDistance gC6 [0, 1] ∧
    astar gC6 0 2 = some (some [0, 2]) ∧
    astar gC6 0 1 = some (some [0, 1]) := by
  with_unfolding_all decide

/-- Claim C6, amended: the multi-goal planner is greedy nearest-neighbor
with ties broken toward the goal earliest in the goal list's iteration
order (not the lowest id): among two reachable goals the first listed wins
whenever its path distance is less than or equal to the other's; and when B
is strictly closer than C, the plan reaches B first via its path and only
then continues toward C. -/
theorem claim_C6_amended (g : Graph) (A B C : ℕ) (pB pC : List ℕ)
    (hB : astar g A B = some (some pB)) (hC : astar g A C = some (some pC))
    (hle : calculatePathDistance g pB ≤ calculatePathDistance g pC) :
    selectBestGoal g A [B, C] = some (B, pB, calculatePathDistance g pB) ∧
    (calculatePathDistance g pB < calculatePathDistance g pC →
      calculatePathMulti g A [B, C] = ([A] ++ pB.tail) ++ tailOrNil (astar g B C)) :=
  ⟨selectBestGoal_pair hB hC hle, fun hlt => multiLoop_pair hB hC hlt⟩

/-- Claim C6, witness: on `gW6`, goal 1 (distance 1) beats goal 2
(distance 2), and the returned plan visits 1 before 2. -/
theorem claim_C6_witness :
    selectBestGoal gW6 0 [1, 2] = some (1, [0, 1], calculatePathDistance gW6 [0, 1]) ∧
    calculatePathMulti gW6 0 [1, 2] = ([0] ++ [0, 1].tail) ++ tailOrNil (astar gW6 1 2) := by
  have h := claim_C6_amended gW6 0 1 2 [0, 1] [0, 2]
    (by with_unfolding_all decide) (by with_unfolding_all decide)
    (by with_unfolding_all decide)
  exact ⟨h.1, h.2 (by with_unfolding_all decide)⟩

/-- Claim C7, counterexample: on `gC7` the planner traverses the single
edge of weight (base cost) 7, but the reported cumulative distance is the
recomputed straight-line distance 1 between the endpoints — not the sum of
the traversed edges' base costs. -/
theorem claim_C7_counterexample :
    astar gC7 0 1 = some (some [0, 1]) ∧
    pathDistanceVal gC7 [0, 1] = 1 ∧
    specBaseCostSum gC7 [0, 1] = 7 ∧
    pathDistanceVal gC7 [0, 1] ≠ specBaseCostSum gC7 [0, 1] := by
  with_unfolding_all decide

/-- Claim C7, amended: the reported cumulative distance is the sum over
consecutive path-node pairs of the straight-line (Euclidean) distance — a
recomputed geometric quantity, not the sum of edge weights — and the
estimated traversal time is that (tenth-rounded) distance divided by the
nominal speed 50, up to the display rounding of at most 1/20 time units
(i.e. 5/2 distance units). -/
theorem claim_C7_amended (g : Graph) (p : List ℕ) :
    calculatePathDistance g p
        = ((p.zip p.tail).map fun q => heuristic (nodeAt g q.1) (nodeAt g q.2)).sum ∧
    |50 * estimatedTimeVal g p - pathDistanceVal g p| ≤ 5 / 2 :=
  ⟨calculatePathDistance_eq_zipSum g p, estimatedTime_bound g p⟩

/-- Claim C8, confirmed (spec-modelled: the cost model `planning/costs.py`
named by the repository README is not under `src/`, so it is modelled from
the spec §4.2): `effective_cost(edge) = base_cost / reliability +
failure_penalty`; penalizing an edge by a positive amount strictly
increases its own effective cost, leaves every other edge untouched,
repeated penalization is strictly monotone, and the Graph Store hands the
planners only traversable outgoing edges, so a `traversable = false` edge
is never expanded. -/
theorem claim_C8 (e : SEdge) (l : List SEdge) (f t : ℕ) (a : ℚ) (ha : 0 < a) :
    effective_cost e < effective_cost (penalize e a) ∧
    (∀ i e2, l.get? i = some e2 → ¬(e2.efrom = f ∧ e2.eto = t) →
      (apply_penalty l f t a).get? i = some e2) ∧
    StrictMono (fun n => effective_cost (penalizeIter e a n)) ∧
    (∀ v e2, e2 ∈ spec_neighbors l v → e2.traversable = true ∧ e2.efrom = v) := by
  refine ⟨effective_cost_penalize_lt ha, ?_, ?_, ?_⟩
  · intro i e2 hi hne
    unfold apply_penalty
    rw [List.get?_map, hi]
    simp [hne]
  · intro m n hmn
    simp only
    unfold effective_cost
    rw [(penalizeIter_penalty e a m).1, (penalizeIter_penalty e a m).2.1,
      (penalizeIter_penalty e a m).2.2, (penalizeIter_penalty e a n).1,
      (penalizeIter_penalty e a n).2.1, (penalizeIter_penalty e a n).2.2]
    have hcast : (m : ℚ) < (n : ℚ) := by exact_mod_cast hmn
    have := mul_lt_mul_of_pos_right hcast ha
    linarith
  · intro v e2 he2
    unfold spec_neighbors at he2
    rw [List.mem_filter] at he2
    have := he2.2
    simp only [Bool.and_eq_true, decide_eq_true_eq] at this
    exact ⟨this.2, this.1⟩

/-- Claim C8, witness: the cost-model facts instantiated on a concrete
edge and penalty amount 1. -/
theorem claim_C8_witness :
    effective_cost ⟨0, 1, 2, 1, 0, true⟩
      < effective_cost (penalize ⟨0, 1, 2, 1, 0, true⟩ 1) :=
  (claim_C8 ⟨0, 1, 2, 1, 0, true⟩ [] 0 1 1 (by norm_num)).1

/-- Claim C9, confirmed: for every graph and every node, `plan(start,
start)` returns the zero-edge path `[start]`: the start is popped first,
immediately equals the goal, and the parent map is still empty. -/
theorem claim_C9 (g : Graph) (start : ℕ) : astar g start start = some (some [start]) :=
  astar_self g start

/-- Claim C10, confirmed: on every finite graph with non-negative edge
weights the search loop terminates for every start/goal pair — the
explicit fuel `fuelBound` is never exhausted, because every re-insertion of
a node into the open set strictly decreases its stored g-score within a
finite set of possible scaled scores, and an expansion that improves
nothing shrinks the open set. -/
theorem claim_C10 (g : Graph) (start goal : ℕ) (HW : NonnegWeights g.edges) :
    ∃ r, astar g start goal = some r :=
  astarWith_terminates HW

/-- Claim C10, witness: termination on the concrete line graph `gW`. -/
theorem claim_C10_witness : ∃ r, astar gW 0 2 = some r :=
  claim_C10 gW 0 2 (by with_unfolding_all decide)
